import Mathlib

/-!
# iot-protocol: Modbus RTU frames, register spans, byte-order codec, sessions

A shallow embedding of `modbus/framertu.go`, `modbus/frame.go`,
`modbus/binary.go`, `mbserver/register.go` and of the accept loop, the
registry and the session operations of `nb/server.go`.

Bytes and 16-bit words are natural numbers; every Go `uint16` operation is
written with an explicit reduction modulo `2^16`.  A Go slice is a `List`.
Run-time panics of the Go code (indexing `rs[0]` of an empty span, slicing out
of range) are an explicit outcome of the embedded functions.
-/

set_option maxRecDepth 100000

namespace Modbus

/-! ## Checksum -/

/-- One bit step of the reflected CRC register: shift right, and fold the
polynomial `0xA001` in when the bit shifted out was set. -/
def crcShift (c : Nat) : Nat :=
  if c % 2 = 1 then (c / 2) ^^^ 0xA001 else c / 2

/-- The CRC register after one message byte: the byte is folded into the low
half and eight bit steps follow. -/
def crcByte (c b : Nat) : Nat :=
  crcShift (crcShift (crcShift (crcShift (crcShift (crcShift (crcShift (crcShift
    (c ^^^ (b % 256)))))))))

/-- Modelled from the spec: `CRCModbus` (the file defining it is not among the
sources).  CRC-16/MODBUS: polynomial `0xA001`, initial register `0xFFFF`,
reflected, no final XOR. -/
def CRCModbus (data : List Nat) : Nat :=
  data.foldl crcByte 0xFFFF

/-! ## `encoding/binary` little-endian 16-bit access -/

/-- The Go `binary.LittleEndian.Uint16(b)`: `uint16(b[0]) | uint16(b[1])<<8`. -/
def LittleEndian_Uint16 (b : List Nat) : Nat :=
  b.getD 0 0 % 256 + (b.getD 1 0 % 256) * 256

/-- The Go `binary.LittleEndian.PutUint16`: the two bytes written for `v`,
`byte(v)` then `byte(v >> 8)`. -/
def LittleEndian_PutUint16 (v : Nat) : List Nat :=
  [v % 256, v / 256 % 256]

/-! ## RTU frames (`modbus/framertu.go`) -/

/-- The Go `RTUFrame`. -/
structure RTUFrame where
  Address : Nat
  Function : Nat
  Data : List Nat
  CRC : Nat
  deriving DecidableEq, Repr

/-- The two errors `NewRTUFrame` can return, with the values its message
prints. -/
inductive RTUError where
  | shortPacket (packet : List Nat)
  | crcMismatch (expected got : Nat)
  deriving DecidableEq, Repr

/-- The Go `NewRTUFrame`, over the checksum function `crc`. -/
def NewRTUFrame (crc : List Nat → Nat) (packet : List Nat) : Except RTUError RTUFrame :=
  if packet.length < 5 then
    .error (.shortPacket packet)
  else
    let pLen := packet.length
    let crcExpect := LittleEndian_Uint16 ((packet.take pLen).drop (pLen - 2))
    let crcCalc := crc (packet.take (pLen - 2))
    if crcCalc ≠ crcExpect then
      .error (.crcMismatch crcExpect crcCalc)
    else
      .ok { Address := packet.getD 0 0
            Function := packet.getD 1 0
            Data := (packet.take (pLen - 2)).drop 2
            CRC := 0 }

/-- The Go `(*RTUFrame).Bytes`, over the checksum function `crc`: the byte
stream returned, paired with the frame as the call leaves it (the method
assigns to no field, and its buffer is freshly allocated). -/
def RTUFrame.Bytes (crc : List Nat → Nat) (frame : RTUFrame) : List Nat × RTUFrame :=
  let bytes := [frame.Address, frame.Function]
  let bytes := bytes ++ frame.Data
  let pLen := bytes.length
  let c := crc (bytes.take pLen)
  (bytes ++ LittleEndian_PutUint16 c, frame)

end Modbus

namespace Mbserver

/-! ## 16-bit arithmetic -/

/-- Go `uint16` addition. -/
def add16 (a b : Nat) : Nat := (a + b) % 65536

/-- Go `uint16` subtraction (wraps below zero). -/
def sub16 (a b : Nat) : Nat := (a % 65536 + 65536 - b % 65536) % 65536

/-- Go `uint16` multiplication. -/
def mul16 (a b : Nat) : Nat := (a * b) % 65536

/-! ## Registers (`mbserver/register.go`) -/

/-- A value implementing the Go `Register` interface: `GetName`, `GetStart`
and `GetNum` are the fields `name`, `start`, `num`; `decoder` is present when
the value also implements `Decoder` (its `Decode` updates the output map, of
type `M`), `encoder` when it implements `Encoder`. -/
structure Register (M : Type) where
  name : String
  start : Nat
  num : Nat
  decoder : Option (List Nat → M → M)
  encoder : Option (String → Except String (List Nat))

/-- The Go `Registers`, a slice of `Register`. -/
abbrev Registers (M : Type) := List (Register M)

/-- How a call ends: a returned value, a returned error, or a run-time panic. -/
inductive Res (ε α : Type) where
  | ok (a : α)
  | err (e : ε)
  | panic
  deriving DecidableEq, Repr

variable {M : Type}

/-- The Go `Registers.GetStart`; `none` is the panic of `rs[0]` on an empty
span. -/
def Registers.GetStart (rs : Registers M) : Option Nat :=
  match rs with
  | [] => none
  | r0 :: _ => some (rs.foldl (fun min r => if min > r.start then r.start else min) r0.start)

/-- The loop of `getLastRegister`: the pair `(max, last)` after the members
`rs`. -/
def lastLoop (rs : Registers M) (max : Nat) (last : Register M) : Nat × Register M :=
  rs.foldl (fun (acc : Nat × Register M) r => if acc.1 < r.start then (r.start, r) else acc)
    (max, last)

/-- The Go `Registers.getLastRegister`; `none` is the panic of `rs[0]`. -/
def Registers.getLastRegister (rs : Registers M) : Option (Register M) :=
  match rs with
  | [] => none
  | r0 :: _ => some (lastLoop rs r0.start r0).2

/-- The Go `Registers.GetNum`: `last.GetStart() + last.GetNum() - rs.GetStart()`
in `uint16`. -/
def Registers.GetNum (rs : Registers M) : Option Nat :=
  match Registers.getLastRegister rs with
  | none => none
  | some last =>
    match Registers.GetStart rs with
    | none => none
    | some s => some (sub16 (add16 last.start last.num) s)

/-- The Go `strings.Split(s, ",")` on the characters of `s`: the fields
between commas, one more than there are commas. -/
def splitComma : List Char → List (List Char)
  | [] => [[]]
  | c :: cs =>
    if c = ',' then [] :: splitComma cs
    else
      match splitComma cs with
      | [] => [[c]]
      | f :: fs => (c :: f) :: fs

/-- The Go `strings.Split(value, ",")`. -/
def Split (value : String) : List String :=
  (splitComma value.data).map String.mk

/-- The Go `copy(buf[start:end], b)` for `start ≤ end ≤ len(buf)`: the first
`min(end - start, len(b))` bytes of `b` overwrite `buf` from `start`. -/
def copyInto (buf : List Nat) (start end_ : Nat) (b : List Nat) : List Nat :=
  let n := min (end_ - start) b.length
  buf.take start ++ b.take n ++ buf.drop (start + n)

/-- The errors of `Registers.Encode`. -/
inductive EncodeError where
  | paramCount
  | unsupportedWrite
  | member (e : String)
  deriving DecidableEq, Repr

/-- What a call of `Registers.Encode` does: how it ends (the buffer returned;
an error comes with a nil buffer), and the member encoders it invoked, in
order, each as the member's index and the text passed. -/
structure EncodeOut where
  res : Res EncodeError (List Nat)
  calls : List (Nat × String)
  deriving DecidableEq, Repr

/-- The `for index, r := range rs` loop of `Registers.Encode`, from member
`index` on: `rest` pairs each remaining member with `vals[index]`, `buf` is
the output buffer so far. -/
def encodeLoop (rs : Registers M) :
    Nat → List (Register M × String) → List Nat → List (Nat × String) → EncodeOut
  | _, [], buf, calls => ⟨.ok buf, calls⟩
  | index, (r, v) :: rest, buf, calls =>
    match r.encoder with
    | none => ⟨.err .unsupportedWrite, calls⟩
    | some w =>
      match w v with
      | .error e => ⟨.err (.member e), calls ++ [(index, v)]⟩
      | .ok b =>
        match Registers.GetStart rs with
        | none => ⟨.panic, calls ++ [(index, v)]⟩
        | some s =>
          let start := mul16 (sub16 r.start s) 2
          let end_ := add16 start (mul16 r.num 2)
          if start ≤ end_ ∧ end_ ≤ buf.length then
            encodeLoop rs (index + 1) rest (copyInto buf start end_ b) (calls ++ [(index, v)])
          else
            ⟨.panic, calls ++ [(index, v)]⟩

/-- The Go `Registers.Encode`.  After the length check `vals[index]` is the
text paired with member `index`. -/
def Registers.Encode (rs : Registers M) (value : String) : EncodeOut :=
  let vals := Split value
  if rs.length ≠ vals.length then
    ⟨.err .paramCount, []⟩
  else
    match Registers.GetNum rs with
    | none => ⟨.panic, []⟩
    | some n =>
      let buf := List.replicate (mul16 n 2) 0
      encodeLoop rs 0 (rs.zip vals) buf []

/-- The errors of `Registers.Decode`; `bounds` carries what its message
prints (member name, start, end, length). -/
inductive DecodeError where
  | unsupportedRead
  | bounds (name : String) (start end_ l : Nat)
  | shortPayload
  deriving DecidableEq, Repr

/-- One invocation of a member decoder: the member's index, the bounds of the
slice expression, and the bytes handed over. -/
structure DecodeCall where
  index : Nat
  start : Nat
  end_ : Nat
  window : List Nat
  deriving DecidableEq, Repr

/-- What a call of `Registers.Decode` does: how it ends, the output map
afterwards, and the member decoders invoked, in order. -/
structure DecodeOut (M : Type) where
  res : Res DecodeError Unit
  m : M
  calls : List DecodeCall

/-- The Go slice expression `data[start:end]`; `none` is the out-of-range
panic.  The capacity of `data` is taken to be its length. -/
def slice (data : List Nat) (start end_ : Nat) : Option (List Nat) :=
  if start ≤ end_ ∧ end_ ≤ data.length then some ((data.take end_).drop start) else none

/-- One of the two `for _, r := range rs` loops of `Registers.Decode`, from
member `index` on; `relative` tells which: offsets from the span start
(`result == 0`) or from the member's own address (`result > 0`). -/
def decodeLoop (relative : Bool) (rs : Registers M) (data : List Nat) (l : Nat) :
    Nat → List (Register M) → M → List DecodeCall → DecodeOut M
  | _, [], m, calls => ⟨.ok (), m, calls⟩
  | index, r :: rest, m, calls =>
    match r.decoder with
    | none => ⟨.err .unsupportedRead, m, calls⟩
    | some ro =>
      match (if relative then (Registers.GetStart rs).map (fun s => mul16 (sub16 r.start s) 2)
             else some (mul16 r.start 2)) with
      | none => ⟨.panic, m, calls⟩
      | some start =>
        let end_ := add16 start (mul16 r.num 2)
        if start > add16 l 1 ∨ end_ > add16 l 1 then
          ⟨.err (.bounds r.name start end_ l), m, calls⟩
        else
          match slice data start end_ with
          | none => ⟨.panic, m, calls⟩
          | some w =>
            decodeLoop relative rs data l (index + 1) rest (ro w m)
              (calls ++ [⟨index, start, end_, w⟩])

/-- The Go `Registers.Decode`.  `result` is a `uint16`, so the three cases of
the `switch` are tried on an unsigned value. -/
def Registers.Decode (rs : Registers M) (data : List Nat) (m : M) : DecodeOut M :=
  let l := data.length % 65536
  match Registers.GetNum rs with
  | none => ⟨.panic, m, []⟩
  | some n =>
    let result := sub16 (data.length % 65536) (mul16 n 2)
    if result = 0 then
      decodeLoop true rs data l 0 rs m []
    else if result > 0 then
      decodeLoop false rs data l 0 rs m []
    else if result < 0 then
      ⟨.err .shortPayload, m, []⟩
    else
      ⟨.ok (), m, []⟩

/-- The address ranges `[start, start + num)` of two registers share no
address. -/
def AddrDisjoint (a b : Register M) : Prop :=
  ∀ x, ¬ (a.start ≤ x ∧ x < a.start + a.num ∧ b.start ≤ x ∧ x < b.start + b.num)

/-- Byte `j` lies in the window of register `r` in a buffer that starts at
address `s`: `(r.start - s) * 2 ≤ j < (r.start - s) * 2 + r.num * 2`. -/
def InWindow (s : Nat) (r : Register M) (j : Nat) : Prop :=
  (r.start - s) * 2 ≤ j ∧ j < (r.start - s) * 2 + r.num * 2

/-! ## Example registers -/

/-- The output map of the examples: the entries written, in order. -/
abbrev ExampleMap := List (String × List Nat)

/-- The value of a decimal numeral, `none` when a character is not a digit. -/
def parseDigits : List Char → Nat → Option Nat
  | [], acc => some acc
  | c :: cs, acc =>
    if 48 ≤ c.toNat ∧ c.toNat ≤ 57 then parseDigits cs (acc * 10 + (c.toNat - 48)) else none

/-- An example `Encoder` for a register of `num` words: a decimal numeral is
written big-endian on `num * 2` bytes; any other text is an error. -/
def exampleEncode (num : Nat) (v : String) : Except String (List Nat) :=
  match v.data, parseDigits v.data 0 with
  | [], _ => .error "empty value"
  | _ :: _, none => .error "not a number"
  | _ :: _, some n => .ok ((List.range (num * 2)).map (fun i => n / 256 ^ (num * 2 - 1 - i) % 256))

/-- An example register implementing both `Decoder` (it records its name and
the bytes it was handed) and `Encoder`. -/
def exampleRegister (name : String) (start num : Nat) : Register ExampleMap :=
  { name := name, start := start, num := num
    decoder := some (fun d m => m ++ [(name, d)])
    encoder := some (exampleEncode num) }

/-! ## Decode: the windows and their effect -/

/-- The window start the `Decode` loop computes for a member: relative to the
span start `s`, or from the member's own address. -/
def decodeStart (relative : Bool) (s : Nat) (r : Register M) : Nat :=
  if relative then mul16 (sub16 r.start s) 2 else mul16 r.start 2

/-- The window end the `Decode` loop computes for a member. -/
def decodeEnd (relative : Bool) (s : Nat) (r : Register M) : Nat :=
  add16 (decodeStart relative s r) (mul16 r.num 2)

/-- The output map after the decoders of the members `rs` ran in declared
order, each on the window `data[st r : en r]`. -/
def decodedMap (st en : Register M → Nat) (data : List Nat) : List (Register M) → M → M
  | [], m => m
  | r :: rest, m =>
    match r.decoder with
    | none => decodedMap st en data rest m
    | some ro => decodedMap st en data rest (ro ((data.take (en r)).drop (st r)) m)

/-- One decoder call per member of `rs`, in declared order from index
`index`, each on the window `data[st r : en r]`. -/
def decodeCalls (st en : Register M → Nat) (data : List Nat) :
    Nat → List (Register M) → List DecodeCall
  | _, [] => []
  | index, r :: rest =>
    { index := index, start := st r, end_ := en r, window := (data.take (en r)).drop (st r) }
      :: decodeCalls st en data (index + 1) rest

end Mbserver

namespace Modbus

/-! ## Byte-order codec (`modbus/binary.go`) -/

/-- The two receivers of `binary.go`: `bigEndian` and `littleEndian`. -/
inductive ByteOrder where
  | big
  | little
  deriving DecidableEq, Repr

/-- The Go `binary.BigEndian.Uint16` / `binary.LittleEndian.Uint16`. -/
def binaryUint16 (o : ByteOrder) (b : List Nat) : Nat :=
  match o with
  | .big => b.getD 1 0 % 256 + (b.getD 0 0 % 256) * 256
  | .little => b.getD 0 0 % 256 + (b.getD 1 0 % 256) * 256

/-- The Go `binary.BigEndian.PutUint16` / `binary.LittleEndian.PutUint16`:
the two bytes written. -/
def binaryPutUint16 (o : ByteOrder) (v : Nat) : List Nat :=
  match o with
  | .big => [v / 256 % 256, v % 256]
  | .little => [v % 256, v / 256 % 256]

/-- The Go `binary.BigEndian.Uint32` / `binary.LittleEndian.Uint32`. -/
def binaryUint32 (o : ByteOrder) (b : List Nat) : Nat :=
  match o with
  | .big => b.getD 3 0 % 256 + (b.getD 2 0 % 256) * 256 + (b.getD 1 0 % 256) * 65536 +
      (b.getD 0 0 % 256) * 16777216
  | .little => b.getD 0 0 % 256 + (b.getD 1 0 % 256) * 256 + (b.getD 2 0 % 256) * 65536 +
      (b.getD 3 0 % 256) * 16777216

/-- The Go `binary.BigEndian.PutUint32` / `binary.LittleEndian.PutUint32`:
the four bytes written. -/
def binaryPutUint32 (o : ByteOrder) (v : Nat) : List Nat :=
  match o with
  | .big => [v / 16777216 % 256, v / 65536 % 256, v / 256 % 256, v % 256]
  | .little => [v % 256, v / 256 % 256, v / 65536 % 256, v / 16777216 % 256]

/-- The Go `BytesToUint16` of either receiver: value `i` is read from
`bytes[i*2 : (i+1)*2]` for `i < len(bytes)/2`; a trailing odd byte is not
read. -/
def BytesToUint16 (o : ByteOrder) : List Nat → List Nat
  | b0 :: b1 :: rest => binaryUint16 o [b0, b1] :: BytesToUint16 o rest
  | _ => []

/-- The Go `Uint16ToBytes` of either receiver: value `i` is written to
`bytes[i*2 : (i+1)*2]`. -/
def Uint16ToBytes (o : ByteOrder) : List Nat → List Nat
  | [] => []
  | v :: vs => binaryPutUint16 o v ++ Uint16ToBytes o vs

/-- The Go `BytesToUint32` of either receiver: value `i` is read from
`bytes[i*4 : (i+1)*4]` for `i < len(bytes)/4`. -/
def BytesToUint32 (o : ByteOrder) : List Nat → List Nat
  | b0 :: b1 :: b2 :: b3 :: rest => binaryUint32 o [b0, b1, b2, b3] :: BytesToUint32 o rest
  | _ => []

/-- The Go `Uint32ToBytes` of either receiver. -/
def Uint32ToBytes (o : ByteOrder) : List Nat → List Nat
  | [] => []
  | v :: vs => binaryPutUint32 o v ++ Uint32ToBytes o vs

/-- The Go `EncodeUint16` of either receiver: the buffer `*bytes` after the
call. -/
def EncodeUint16 (o : ByteOrder) (bytes : List Nat) (value : Nat) : List Nat :=
  let bArr := binaryPutUint16 o value
  bytes ++ bArr

/-- The Go `EncodeUint32` of either receiver: the buffer `*bytes` after the
call. -/
def EncodeUint32 (o : ByteOrder) (bytes : List Nat) (value : Nat) : List Nat :=
  let bArr := binaryPutUint32 o value
  bytes ++ bArr

/-- The Go conversion `(int)(x)` of a `uint` value on a 64-bit platform: the
value modulo `2^64`, read as a signed 64-bit integer. -/
def uintToInt (x : Nat) : Int :=
  if x % 18446744073709551616 < 9223372036854775808 then (x % 18446744073709551616 : Nat)
  else ((x % 18446744073709551616 : Nat) : Int) - 18446744073709551616

/-- The error of the cursor decoders, `errors.New("bytes is not Enough")`. -/
inductive BinaryError where
  | notEnough
  deriving DecidableEq, Repr

/-- What a cursor decoder leaves: the values and error returned, and the
cursor `*bytes` after the call. -/
structure CursorOut where
  vals : List Nat
  err : Option BinaryError
  bytes : List Nat
  deriving DecidableEq, Repr

/-- The Go `DecodeUint16s` of either receiver; `none` is the panic of slicing
with a negative bound. -/
def DecodeUint16s (o : ByteOrder) (bytes : List Nat) (num : Nat) : Option CursorOut :=
  let needLen := uintToInt (2 * num)
  if (bytes.length : Int) < needLen then
    some { vals := [], err := some .notEnough, bytes := bytes }
  else if needLen < 0 then
    none
  else
    some { vals := BytesToUint16 o (bytes.take needLen.toNat), err := none,
           bytes := bytes.drop needLen.toNat }

/-- The Go `DecodeUint32s` of either receiver; `none` is the panic of slicing
with a negative bound. -/
def DecodeUint32s (o : ByteOrder) (bytes : List Nat) (num : Nat) : Option CursorOut :=
  let needLen := uintToInt (4 * num)
  if (bytes.length : Int) < needLen then
    some { vals := [], err := some .notEnough, bytes := bytes }
  else if needLen < 0 then
    none
  else
    some { vals := BytesToUint32 o ((bytes.take needLen.toNat).drop 0), err := none,
           bytes := bytes.drop needLen.toNat }

/-! ## Frame helpers (`modbus/frame.go`, `modbus/framertu.go`) -/

/-- The Go `(*RTUFrame).SetException`; the `Exception` type is a byte. -/
def RTUFrame.SetException (frame : RTUFrame) (exception : Nat) : RTUFrame :=
  { frame with Function := frame.Function ||| 0x80, Data := [exception] }

/-- The Go `GetException` on an RTU frame; the zero `Exception` is `Success`.
`none` is the panic of indexing an empty `Data`. -/
def GetException (frame : RTUFrame) : Option Nat :=
  let function := frame.Function
  if function &&& 0x80 ≠ 0 then
    match frame.Data with
    | [] => none
    | d :: _ => some d
  else
    some 0

/-- The Go `GetRegister` on an RTU frame; `none` is the panic of slicing
`data[0:2]` out of range. -/
def GetRegister (frame : RTUFrame) : Option Nat :=
  let data := frame.Data
  if 2 ≤ data.length then some (binaryUint16 .big (data.take 2)) else none

/-- The Go `SetDataWithRegisterAndNumberAndValues` on an RTU frame: the frame
after `SetData(data)`. -/
def SetDataWithRegisterAndNumberAndValues (frame : RTUFrame) (register number : Nat)
    (values : List Nat) : RTUFrame :=
  let data := List.replicate (5 + values.length * 2) 0
  let data := Mbserver.copyInto data 0 2 (binaryPutUint16 .big register)
  let data := Mbserver.copyInto data 2 4 (binaryPutUint16 .big number)
  let data := data.set 4 ((values.length * 2) % 256)
  let data := Mbserver.copyInto data 5 data.length (Uint16ToBytes .big values)
  { frame with Data := data }

end Modbus

namespace Nb

/-! ## Accept loop (`nb/server.go`, `StartServer`) -/

/-- The Go `time.Millisecond`, in nanoseconds. -/
def Millisecond : Int := 1000000

/-- The Go `time.Second`, in nanoseconds. -/
def Second : Int := 1000000000

/-- Go `int64` wrap-around of an integer. -/
def wrapInt64 (x : Int) : Int :=
  (x + 9223372036854775808) % 18446744073709551616 - 9223372036854775808

/-- What `l.Accept()` returns in an iteration that does not leave the loop: a
connection, or a temporary error. -/
inductive Accept where
  | conn
  | temporary
  deriving DecidableEq, Repr

/-- The update of `tempDelay` on a temporary accept error; the new value is
the duration slept. -/
def backoff (tempDelay : Int) : Int :=
  let tempDelay := if tempDelay = 0 then 5 * Millisecond else wrapInt64 (tempDelay * 2)
  if tempDelay > 1 * Second then 1 * Second else tempDelay

/-- One iteration of the accept loop on `tempDelay`. -/
def acceptStep (tempDelay : Int) : Accept → Int
  | .temporary => backoff tempDelay
  | .conn => 0

/-- The accept loop over a sequence of accept results: the final `tempDelay`
and the durations slept, in order. -/
def acceptLoop : Int → List Accept → Int × List Int
  | tempDelay, [] => (tempDelay, [])
  | tempDelay, .temporary :: rest =>
    let r := acceptLoop (backoff tempDelay) rest
    (r.1, backoff tempDelay :: r.2)
  | _, .conn :: rest => acceptLoop 0 rest

/-! ## Sessions and the registry (`nb/server.go`) -/

/-- The fields of a Go `Conn` that `Close`, `SetID` and `FindConn` read or
write: the identity, the `inShutdown` flag, whether `CloseNotifier` has been
closed, whether the transport `rwc` has been closed. -/
structure Conn where
  id : String
  inShutdown : Int
  closeNotifierClosed : Bool
  rwcClosed : Bool
  deriving DecidableEq, Repr

/-- A server and its sessions: `heap` gives the `Conn` behind each pointer,
`activeConn` lists the keys of the registry in the order `Range` visits them,
`afterConnCloseSet` tells whether the field `AfterConnClose` holds a function
(`NewServer` leaves it nil), `afterConnClose` lists the identities that
callback was invoked with, in order.  What the callback itself does is the
caller's code: its invocation is recorded and nothing else. -/
structure Server where
  heap : Nat → Conn
  activeConn : List Nat
  afterConnCloseSet : Bool
  afterConnClose : List String

/-- A server with the `Conn` behind pointer `c` replaced. -/
def Server.setConn (s : Server) (c : Nat) (v : Conn) : Server :=
  { s with heap := fun p => if p = c then v else s.heap p }

/-- The Go `(*Conn).ShuttingDown`. -/
def Conn.ShuttingDown (s : Server) (c : Nat) : Bool :=
  (s.heap c).inShutdown ≠ 0

/-- The Go `(*Conn).Close`; `none` is a panic: that of closing a closed
channel, or that of calling `AfterConnClose` when the field is nil. -/
def Conn.Close (s : Server) (c : Nat) : Option Server :=
  if ¬ Conn.ShuttingDown s c then
    let s := s.setConn c { s.heap c with inShutdown := 1 }
    let s := { s with activeConn := s.activeConn.filter (fun p => p ≠ c) }
    if (s.heap c).closeNotifierClosed then none
    else
      let s := s.setConn c { s.heap c with closeNotifierClosed := true }
      let s := s.setConn c { s.heap c with rwcClosed := true }
      if s.afterConnCloseSet then
        some { s with afterConnClose := s.afterConnClose ++ [(s.heap c).id] }
      else
        none
  else
    some s

/-- The Go `(*Conn).SetID`.  The callback given to `Range` returns `false`,
so `Range` visits the first key only. -/
def Conn.SetID (s : Server) (c : Nat) (id : String) : Option Server :=
  let ranged :=
    match s.activeConn with
    | [] => some s
    | prev :: _ => if (s.heap prev).id = id then Conn.Close s prev else some s
  match ranged with
  | none => none
  | some s => some (s.setConn c { s.heap c with id := id })

/-- The errors of the package. -/
inductive NbError where
  | DeviceOffline
  | SendMessageTimeout
  | WaitMessageTimeout
  deriving DecidableEq, Repr

/-- A `*Conn` in `FindConn`: the one allocated by `new(Conn)`, or a session
of the heap. -/
inductive ConnRef where
  | fresh
  | session (c : Nat)
  deriving DecidableEq, Repr

/-- The identity read through a `ConnRef`; that of `new(Conn)` is empty. -/
def ConnRef.id (s : Server) : ConnRef → String
  | .fresh => ""
  | .session c => (s.heap c).id

/-- The `Range` of `FindConn`: `c1` after the keys `keys` were visited, the
visit stopping at the first session whose identity is `id`. -/
def findLoop (s : Server) (id : String) : List Nat → ConnRef → ConnRef
  | [], c1 => c1
  | c :: rest, c1 => if (s.heap c).id = id then .session c else findLoop s id rest c1

/-- The Go `(*Server).FindConn`. -/
def Server.FindConn (s : Server) (id : String) : Except NbError ConnRef :=
  let c1 := findLoop s id s.activeConn .fresh
  if ConnRef.id s c1 = "" then .error .DeviceOffline else .ok c1

/-! ## The operations on sessions -/

/-- The fields of the `Conn` that the Go `(*Server).newConn` returns. -/
def newConn : Conn :=
  { id := "", inShutdown := 0, closeNotifierClosed := false, rwcClosed := false }

/-- One connection accepted by `StartServer`: `c := srv.newConn(rwc)`, a new
`Conn` at the pointer `c`, then `srv.activeConn.Store(c, true)`. -/
def Server.accept (s : Server) (c : Nat) : Server :=
  let s := s.setConn c newConn
  { s with activeConn := if c ∈ s.activeConn then s.activeConn else s.activeConn ++ [c] }

/-- The `Range` of `Shutdown`: `Close` on each key visited. -/
def shutdownLoop : List Nat → Server → Option Server
  | [], s => some s
  | c :: rest, s =>
    match Conn.Close s c with
    | none => none
    | some s => shutdownLoop rest s

/-- The Go `(*Server).Shutdown`. -/
def Server.Shutdown (s : Server) : Option Server :=
  shutdownLoop s.activeConn s

/-- The operations of `nb/server.go` on a server and its sessions: an accept
of `StartServer`, `Close`, `SetID`, `Shutdown`, an assignment by the caller
to the exported field `AfterConnClose` (of a function, or of nil), and the
remaining methods (`Read`, `Write`, `Send`, `Receive`, `FindConn`, `ID`,
`RemoteAddr`, `ShuttingDown`), which assign to none of the fields of the
state. -/
inductive Op where
  | accept (c : Nat)
  | close (c : Nat)
  | setID (c : Nat) (id : String)
  | shutdown
  | assignAfterConnClose (nonNil : Bool)
  | other
  deriving DecidableEq, Repr

/-- The state after one operation; `none` is a panic. -/
def Server.step (s : Server) : Op → Option Server
  | .accept c => some (s.accept c)
  | .close c => Conn.Close s c
  | .setID c id => Conn.SetID s c id
  | .shutdown => s.Shutdown
  | .assignAfterConnClose nonNil => some { s with afterConnCloseSet := nonNil }
  | .other => some s

/-- The state after a sequence of operations. -/
def Server.run : Server → List Op → Option Server
  | s, [] => some s
  | s, op :: rest =>
    match s.step op with
    | none => none
    | some s => Server.run s rest

/-- The close signal of a session that is not shutting down is still open:
`CloseNotifier` is closed by `Close` only, after `inShutdown` is set. -/
def Server.SignalOpen (s : Server) : Prop :=
  ∀ c, (s.heap c).inShutdown = 0 → (s.heap c).closeNotifierClosed = false

/-- The server `NewServer()` returns: no connection accepted yet, and
`AfterConnClose` nil. -/
def Server.initial : Server :=
  { heap := fun _ => newConn, activeConn := [], afterConnCloseSet := false,
    afterConnClose := [] }

/-! ## Example server -/

/-- A session that was accepted and given the identity `id`. -/
def exampleConn (id : String) : Conn :=
  { id := id, inShutdown := 0, closeNotifierClosed := false, rwcClosed := false }

/-- Three live sessions: 0 bears "Y", 1 bears "X", 2 has no identity yet;
`order` is the order in which `Range` visits them.  The caller has assigned
`AfterConnClose`. -/
def exampleServer (order : List Nat) : Server :=
  { heap := fun p => if p = 0 then exampleConn "Y" else if p = 1 then exampleConn "X"
                     else exampleConn ""
    activeConn := order
    afterConnCloseSet := true
    afterConnClose := [] }

end Nb

/-! # Theorems -/

namespace Modbus

theorem crcShift_lt (c : Nat) (h : c < 65536) : crcShift c < 65536 := by
  unfold crcShift
  split
  · exact Nat.xor_lt_two_pow (n := 16) (by omega) (by norm_num)
  · omega

theorem crcByte_lt (c b : Nat) (h : c < 65536) : crcByte c b < 65536 := by
  unfold crcByte
  have h0 : c ^^^ (b % 256) < 65536 :=
    Nat.xor_lt_two_pow (n := 16) h (by omega)
  exact crcShift_lt _ (crcShift_lt _ (crcShift_lt _ (crcShift_lt _
    (crcShift_lt _ (crcShift_lt _ (crcShift_lt _ (crcShift_lt _ h0)))))))

theorem foldl_crcByte_lt (data : List Nat) (c : Nat) (h : c < 65536) :
    data.foldl crcByte c < 65536 := by
  induction data generalizing c with
  | nil => simpa using h
  | cons b bs ih => exact ih _ (crcByte_lt c b h)

/-- The modelled checksum is a 16-bit value. -/
theorem CRCModbus_lt (data : List Nat) : CRCModbus data < 65536 :=
  foldl_crcByte_lt data 0xFFFF (by norm_num)

/-- The packet `Bytes` builds, split at its checksum. -/
theorem Bytes_eq (crc : List Nat → Nat) (f : RTUFrame) :
    (RTUFrame.Bytes crc f).1 =
      f.Address :: f.Function :: (f.Data ++
        [crc (f.Address :: f.Function :: f.Data) % 256,
         crc (f.Address :: f.Function :: f.Data) / 256 % 256]) := by
  simp [RTUFrame.Bytes, LittleEndian_PutUint16]

/-- Parsing a packet that ends in the checksum of what precedes it. -/
theorem NewRTUFrame_of_crc (crc : List Nat → Nat) (hcrc : ∀ xs, crc xs < 65536)
    (a fn d : Nat) (ds : List Nat) :
    NewRTUFrame crc (a :: fn :: ((d :: ds) ++
        [crc (a :: fn :: d :: ds) % 256, crc (a :: fn :: d :: ds) / 256 % 256])) =
      .ok { Address := a, Function := fn, Data := d :: ds, CRC := 0 } := by
  have hc := hcrc (a :: fn :: d :: ds)
  have hlen : (a :: fn :: ((d :: ds) ++
        [crc (a :: fn :: d :: ds) % 256, crc (a :: fn :: d :: ds) / 256 % 256])).length
        = ds.length + 5 := by simp
  have htake : (a :: fn :: ((d :: ds) ++
        [crc (a :: fn :: d :: ds) % 256, crc (a :: fn :: d :: ds) / 256 % 256])).take
        (ds.length + 3) = a :: fn :: d :: ds := by
    simp [List.take_append_eq_append_take]
  have hdrop : (a :: fn :: ((d :: ds) ++
        [crc (a :: fn :: d :: ds) % 256, crc (a :: fn :: d :: ds) / 256 % 256])).drop
        (ds.length + 3) =
        [crc (a :: fn :: d :: ds) % 256, crc (a :: fn :: d :: ds) / 256 % 256] := by
    simp [List.drop_append_eq_append_drop]
  unfold NewRTUFrame
  rw [hlen]
  have h5 : ¬ (ds.length + 5 < 5) := by omega
  have e3 : ds.length + 5 - 2 = ds.length + 3 := by omega
  rw [if_neg h5]
  simp only [e3, ← hlen, List.take_length, htake, hdrop]
  have hle : crc (a :: fn :: d :: ds) =
      LittleEndian_Uint16
        [crc (a :: fn :: d :: ds) % 256, crc (a :: fn :: d :: ds) / 256 % 256] := by
    simp [LittleEndian_Uint16]
    omega
  rw [if_neg (by simpa using hle)]
  simp

/-- A packet of at least four bytes, split into address, function, payload
and the two trailing bytes. -/
theorem packet_split (p : List Nat) (h : 4 ≤ p.length) :
    p = p.getD 0 0 :: p.getD 1 0 :: ((p.take (p.length - 2)).drop 2 ++
      [p.getD (p.length - 2) 0, p.getD (p.length - 1) 0]) := by
  apply List.ext_getElem?
  intro i
  rcases i with _ | _ | i
  · simp [List.getD_eq_getElem?_getD]
    rcases p with _ | ⟨a, _⟩
    · simp at h
    · simp
  · simp [List.getD_eq_getElem?_getD]
    rcases p with _ | ⟨a, _ | ⟨b, _⟩⟩
    · simp at h
    · simp at h
    · simp
  · simp only [List.getElem?_cons_succ]
    by_cases hi : i + 2 < p.length - 2
    · rw [List.getElem?_append_left (by simp; omega)]
      simp [List.getElem?_drop, List.getElem?_take, hi]
      rw [if_pos (by omega)]; congr 1; omega
    · rw [List.getElem?_append_right (by simp; omega)]
      simp only [List.length_drop, List.length_take]
      have hm : min (p.length - 2) p.length - 2 = p.length - 4 := by omega
      rw [hm]
      by_cases h0 : i + 2 = p.length - 2
      · have : i - (p.length - 4) = 0 := by omega
        rw [this]
        simp [List.getD_eq_getElem?_getD]
        have hlt : i + 1 + 1 < p.length := by omega
        rw [List.getElem?_eq_getElem hlt]
        have h2 : p.length - 2 < p.length := by omega
        rw [List.getElem?_eq_getElem h2]
        simp
        congr 1
      · by_cases h1 : i + 2 = p.length - 1
        · have : i - (p.length - 4) = 1 := by omega
          rw [this]
          simp [List.getD_eq_getElem?_getD]
          have hlt : i + 1 + 1 < p.length := by omega
          rw [List.getElem?_eq_getElem hlt]
          have h2 : p.length - 1 < p.length := by omega
          rw [List.getElem?_eq_getElem h2]
          simp
          congr 1
        · have hge : p.length ≤ i + 1 + 1 := by omega
          rw [List.getElem?_eq_none hge]
          have : 2 ≤ i - (p.length - 4) := by omega
          rw [List.getElem?_eq_none (by simpa using this)]

/-- For a packet of at least five bytes, `NewRTUFrame` compares the checksum
of all but the last two bytes with the last two bytes read little-endian. -/
theorem NewRTUFrame_long (crc : List Nat → Nat) (p : List Nat) (h : ¬ p.length < 5) :
    NewRTUFrame crc p =
      if crc (p.take (p.length - 2)) ≠
          p.getD (p.length - 2) 0 % 256 + (p.getD (p.length - 1) 0 % 256) * 256 then
        .error (.crcMismatch
          (p.getD (p.length - 2) 0 % 256 + (p.getD (p.length - 1) 0 % 256) * 256)
          (crc (p.take (p.length - 2))))
      else
        .ok { Address := p.getD 0 0, Function := p.getD 1 0,
              Data := (p.take (p.length - 2)).drop 2, CRC := 0 } := by
  have e : LittleEndian_Uint16 ((p.take p.length).drop (p.length - 2)) =
      p.getD (p.length - 2) 0 % 256 + (p.getD (p.length - 1) 0 % 256) * 256 := by
    have e1 : p.length - 2 + 1 = p.length - 1 := by omega
    simp [LittleEndian_Uint16, List.getD_eq_getElem?_getD, List.getElem?_drop, e1]
  unfold NewRTUFrame
  rw [if_neg h]
  simp only [e]

/-- C1 (as stated, refuted): the frame with address 1, function 3 and the
empty payload serializes to four bytes, which `NewRTUFrame` rejects as shorter
than five. -/
theorem NewRTUFrame_Bytes_empty_payload :
    NewRTUFrame CRCModbus (RTUFrame.Bytes CRCModbus ⟨1, 3, [], 0⟩).1 =
      .error (.shortPacket [1, 3, 64, 33]) := by
  rfl

/-- C1 (amended): for every RTU frame with a non-empty payload, and every
16-bit checksum function, `NewRTUFrame` applied to the frame's `Bytes`
succeeds with the same address, function and payload. -/
theorem NewRTUFrame_Bytes_roundtrip (crc : List Nat → Nat) (hcrc : ∀ xs, crc xs < 65536)
    (f : RTUFrame) (hne : f.Data ≠ []) :
    ∃ g, NewRTUFrame crc (RTUFrame.Bytes crc f).1 = .ok g ∧
      g.Address = f.Address ∧ g.Function = f.Function ∧ g.Data = f.Data := by
  obtain ⟨a, fn, data, c⟩ := f
  cases data with
  | nil => exact absurd rfl hne
  | cons d ds =>
    refine ⟨{ Address := a, Function := fn, Data := d :: ds, CRC := 0 }, ?_, rfl, rfl, rfl⟩
    rw [Bytes_eq]
    exact NewRTUFrame_of_crc crc hcrc a fn d ds

/-- The round trip of C1 at the frame 01 03 00 0A 00 02 under the modelled
checksum. -/
theorem NewRTUFrame_Bytes_roundtrip_witness :
    ∃ g, NewRTUFrame CRCModbus (RTUFrame.Bytes CRCModbus ⟨1, 3, [0, 10, 0, 2], 7⟩).1 = .ok g ∧
      g.Address = 1 ∧ g.Function = 3 ∧ g.Data = [0, 10, 0, 2] :=
  NewRTUFrame_Bytes_roundtrip CRCModbus CRCModbus_lt ⟨1, 3, [0, 10, 0, 2], 7⟩ (by decide)

/-- C2: `NewRTUFrame` fails exactly when the packet has fewer than five bytes
or the checksum of all but its last two bytes differs from the last two bytes
read little-endian; otherwise the packet is address, function, payload and two
checksum bytes, and the frame returned holds the first three.  The bytes
01 03 00 0A 00 02 E4 09 (checksum 0x09E4, low byte first) parse to address 1,
function 3, payload 00 0A 00 02. -/
theorem NewRTUFrame_characterised (crc : List Nat → Nat) (p : List Nat) :
    ((∃ e, NewRTUFrame crc p = .error e) ↔
      (p.length < 5 ∨ crc (p.take (p.length - 2)) ≠
        p.getD (p.length - 2) 0 % 256 + (p.getD (p.length - 1) 0 % 256) * 256)) ∧
    (¬ (p.length < 5 ∨ crc (p.take (p.length - 2)) ≠
        p.getD (p.length - 2) 0 % 256 + (p.getD (p.length - 1) 0 % 256) * 256) →
      ∃ a fn data lo hi, p = a :: fn :: (data ++ [lo, hi]) ∧
        NewRTUFrame crc p = .ok { Address := a, Function := fn, Data := data, CRC := 0 }) ∧
    (CRCModbus [1, 3, 0, 10, 0, 2] = 0x09E4 ∧
      NewRTUFrame CRCModbus [1, 3, 0, 10, 0, 2, 0xE4, 0x09] =
        .ok { Address := 1, Function := 3, Data := [0, 10, 0, 2], CRC := 0 }) := by
  refine ⟨?_, ?_, by rfl, by rfl⟩
  · by_cases h5 : p.length < 5
    · simp [NewRTUFrame, h5]
    · rw [NewRTUFrame_long crc p h5]
      by_cases hc : crc (p.take (p.length - 2)) ≠
          p.getD (p.length - 2) 0 % 256 + (p.getD (p.length - 1) 0 % 256) * 256
      · rw [if_pos hc]
        exact ⟨fun _ => Or.inr hc, fun _ => ⟨_, rfl⟩⟩
      · rw [if_neg hc]
        constructor
        · rintro ⟨e, he⟩
          cases he
        · rintro (h | h)
          · exact absurd h h5
          · exact absurd h hc
  · intro h
    have h5 : ¬ p.length < 5 := fun h' => h (Or.inl h')
    have hc : ¬ crc (p.take (p.length - 2)) ≠
        p.getD (p.length - 2) 0 % 256 + (p.getD (p.length - 1) 0 % 256) * 256 :=
      fun h' => h (Or.inr h')
    refine ⟨p.getD 0 0, p.getD 1 0, (p.take (p.length - 2)).drop 2,
      p.getD (p.length - 2) 0, p.getD (p.length - 1) 0, packet_split p (by omega), ?_⟩
    rw [NewRTUFrame_long crc p h5, if_neg hc]

/-- The success case of C2 at the literal vector 01 03 00 0A 00 02 E4 09. -/
theorem NewRTUFrame_characterised_witness :
    ∃ a fn data lo hi, [1, 3, 0, 10, 0, 2, 0xE4, 0x09] = a :: fn :: (data ++ [lo, hi]) ∧
      NewRTUFrame CRCModbus [1, 3, 0, 10, 0, 2, 0xE4, 0x09] =
        .ok { Address := a, Function := fn, Data := data, CRC := 0 } :=
  (NewRTUFrame_characterised CRCModbus [1, 3, 0, 10, 0, 2, 0xE4, 0x09]).2.1 (by decide)

/-- C3: `Bytes` returns address, function, payload and then the checksum of
those bytes, low byte first; its length is the payload length plus four; it
does not depend on the frame's CRC field; the frame is unchanged by the call,
so serializing again gives the same bytes. -/
theorem Bytes_layout (crc : List Nat → Nat) (hcrc : ∀ xs, crc xs < 65536) (f : RTUFrame) :
    (RTUFrame.Bytes crc f).1 =
      [f.Address, f.Function] ++ f.Data ++
        [crc ([f.Address, f.Function] ++ f.Data) % 256,
         crc ([f.Address, f.Function] ++ f.Data) / 256] ∧
    (RTUFrame.Bytes crc f).1.length = f.Data.length + 4 ∧
    (∀ c, (RTUFrame.Bytes crc { f with CRC := c }).1 = (RTUFrame.Bytes crc f).1) ∧
    (RTUFrame.Bytes crc f).2 = f ∧
    (RTUFrame.Bytes crc (RTUFrame.Bytes crc f).2).1 = (RTUFrame.Bytes crc f).1 := by
  have hc := hcrc (f.Address :: f.Function :: f.Data)
  have hdiv : crc (f.Address :: f.Function :: f.Data) / 256 % 256 =
      crc (f.Address :: f.Function :: f.Data) / 256 := by omega
  refine ⟨?_, ?_, ?_, rfl, rfl⟩
  · rw [Bytes_eq, hdiv]
    simp
  · rw [Bytes_eq]
    simp
  · intro c
    rw [Bytes_eq, Bytes_eq]

/-- The layout of C3 at the frame 01 03 00 0A 00 02 under the modelled
checksum: the bytes are 01 03 00 0A 00 02 E4 09. -/
theorem Bytes_layout_witness :
    (∀ xs, CRCModbus xs < 65536) ∧
    (RTUFrame.Bytes CRCModbus ⟨1, 3, [0, 10, 0, 2], 0⟩).1 = [1, 3, 0, 10, 0, 2, 0xE4, 0x09] :=
  ⟨CRCModbus_lt,
    (Bytes_layout CRCModbus CRCModbus_lt ⟨1, 3, [0, 10, 0, 2], 0⟩).1.trans (by rfl)⟩

end Modbus

namespace Mbserver

variable {M : Type}

/-! ## Span attributes -/

/-- The `min` loop of `GetStart` returns a lower bound of its initial value
and of every start it visits, and that bound is one of them. -/
theorem minLoop_spec (rs : Registers M) (m0 : Nat) :
    rs.foldl (fun min r => if min > r.start then r.start else min) m0 ≤ m0 ∧
    (∀ r ∈ rs, rs.foldl (fun min r => if min > r.start then r.start else min) m0 ≤ r.start) ∧
    (rs.foldl (fun min r => if min > r.start then r.start else min) m0 = m0 ∨
      ∃ r ∈ rs, rs.foldl (fun min r => if min > r.start then r.start else min) m0 = r.start) := by
  induction rs generalizing m0 with
  | nil => simp
  | cons r tl ih =>
    simp only [List.foldl_cons]
    obtain ⟨h1, h2, h3⟩ := ih (if m0 > r.start then r.start else m0)
    have hle : (if m0 > r.start then r.start else m0) ≤ m0 := by split <;> omega
    have hle2 : (if m0 > r.start then r.start else m0) ≤ r.start := by split <;> omega
    refine ⟨le_trans h1 hle, ?_, ?_⟩
    · intro x hx
      rcases List.mem_cons.mp hx with rfl | hx
      · exact le_trans h1 hle2
      · exact h2 x hx
    · rcases h3 with h3 | ⟨x, hx, h3⟩
      · by_cases hm : m0 > r.start
        · right
          exact ⟨r, List.mem_cons_self _ _, by rw [h3, if_pos hm]⟩
        · left
          rw [h3, if_neg hm]
      · right
        exact ⟨x, List.mem_cons_of_mem _ hx, h3⟩

/-- `GetStart` of a non-empty span is the minimum of the members' starts. -/
theorem GetStart_spec (rs : Registers M) (hne : rs ≠ []) :
    ∃ S, Registers.GetStart rs = some S ∧ (∃ r ∈ rs, r.start = S) ∧ ∀ r ∈ rs, S ≤ r.start := by
  cases rs with
  | nil => exact absurd rfl hne
  | cons r0 tl =>
    obtain ⟨h1, h2, h3⟩ := minLoop_spec (r0 :: tl) r0.start
    refine ⟨_, rfl, ?_, h2⟩
    rcases h3 with h3 | ⟨x, hx, h3⟩
    · exact ⟨r0, List.mem_cons_self _ _, h3.symm⟩
    · exact ⟨x, hx, h3.symm⟩

/-- The loop of `getLastRegister`: either no member visited exceeds `max` and
the pair is unchanged, or the result is the first member visited whose start
is the greatest, and that start exceeds `max`. -/
theorem lastLoop_spec (rs : Registers M) (mx : Nat) (last : Register M) :
    ((∀ r ∈ rs, r.start ≤ mx) ∧ lastLoop rs mx last = (mx, last)) ∨
    ∃ pre L post, rs = pre ++ L :: post ∧ lastLoop rs mx last = (L.start, L) ∧
      mx < L.start ∧ (∀ r ∈ pre, r.start < L.start) ∧ (∀ r ∈ post, r.start ≤ L.start) := by
  induction rs generalizing mx last with
  | nil => left; simp [lastLoop]
  | cons r tl ih =>
    by_cases h : mx < r.start
    · have e : lastLoop (r :: tl) mx last = lastLoop tl r.start r := by
        simp [lastLoop, h]
      right
      rcases ih r.start r with ⟨h1, h2⟩ | ⟨pre, L, post, h1, h2, h3, h4, h5⟩
      · exact ⟨[], r, tl, rfl, by rw [e, h2], h, by simp, h1⟩
      · refine ⟨r :: pre, L, post, by rw [h1]; rfl, by rw [e, h2], by omega, ?_, h5⟩
        intro x hx
        rcases List.mem_cons.mp hx with rfl | hx
        · exact h3
        · exact h4 x hx
    · have e : lastLoop (r :: tl) mx last = lastLoop tl mx last := by
        simp [lastLoop, h]
      rcases ih mx last with ⟨h1, h2⟩ | ⟨pre, L, post, h1, h2, h3, h4, h5⟩
      · left
        refine ⟨?_, by rw [e, h2]⟩
        intro x hx
        rcases List.mem_cons.mp hx with rfl | hx
        · omega
        · exact h1 x hx
      · right
        refine ⟨r :: pre, L, post, by rw [h1]; rfl, by rw [e, h2], h3, ?_, h5⟩
        intro x hx
        rcases List.mem_cons.mp hx with rfl | hx
        · omega
        · exact h4 x hx

/-- `getLastRegister` of a non-empty span is the first member, in declared
order, whose start is the maximum. -/
theorem getLastRegister_spec (rs : Registers M) (hne : rs ≠ []) :
    ∃ pre L post, rs = pre ++ L :: post ∧ Registers.getLastRegister rs = some L ∧
      (∀ r ∈ pre, r.start < L.start) ∧ (∀ r ∈ post, r.start ≤ L.start) := by
  cases rs with
  | nil => exact absurd rfl hne
  | cons r0 tl =>
    have e : Registers.getLastRegister (r0 :: tl) = some (lastLoop tl r0.start r0).2 := by
      simp [Registers.getLastRegister, lastLoop]
    rcases lastLoop_spec tl r0.start r0 with ⟨h1, h2⟩ | ⟨pre, L, post, h1, h2, h3, h4, h5⟩
    · exact ⟨[], r0, tl, rfl, by rw [e, h2], by simp, h1⟩
    · refine ⟨r0 :: pre, L, post, by rw [h1]; rfl, by rw [e, h2], ?_, h5⟩
      intro x hx
      rcases List.mem_cons.mp hx with rfl | hx
      · exact h3
      · exact h4 x hx

/-- `GetNum` from the last register and the span start. -/
theorem GetNum_eq (rs : Registers M) (L : Register M) (S : Nat)
    (hL : Registers.getLastRegister rs = some L) (hS : Registers.GetStart rs = some S) :
    Registers.GetNum rs = some (sub16 (add16 L.start L.num) S) := by
  simp [Registers.GetNum, hL, hS]

/-- C7: for a non-empty span, `GetStart` is the minimum of the members'
starts, and `GetNum` is `L.start + L.num - GetStart` modulo `2^16`, where `L`
is the first member in declared order whose start is the maximum. -/
theorem span_attributes (rs : Registers M) (hne : rs ≠ []) :
    ∃ S pre L post,
      Registers.GetStart rs = some S ∧ (∃ r ∈ rs, r.start = S) ∧ (∀ r ∈ rs, S ≤ r.start) ∧
      rs = pre ++ L :: post ∧ (∀ r ∈ pre, r.start < L.start) ∧
      (∀ r ∈ post, r.start ≤ L.start) ∧
      Registers.GetNum rs = some ((L.start + L.num - S) % 65536) := by
  obtain ⟨S, hS, hex, hmin⟩ := GetStart_spec rs hne
  obtain ⟨pre, L, post, hrs, hL, hpre, hpost⟩ := getLastRegister_spec rs hne
  refine ⟨S, pre, L, post, hS, hex, hmin, hrs, hpre, hpost, ?_⟩
  rw [GetNum_eq rs L S hL hS]
  have hSL : S ≤ L.start := hmin L (by rw [hrs]; simp)
  simp only [sub16, add16]
  congr 1
  omega

/-- The span of C7: members {start=10,num=2} and {start=15,num=1} give start
10 and count 6. -/
theorem span_attributes_witness :
    Registers.GetStart [exampleRegister "a" 10 2, exampleRegister "b" 15 1] = some 10 ∧
    Registers.GetNum [exampleRegister "a" 10 2, exampleRegister "b" 15 1] = some 6 ∧
    ∃ S pre L post,
      Registers.GetStart [exampleRegister "a" 10 2, exampleRegister "b" 15 1] = some S ∧
      (∃ r ∈ [exampleRegister "a" 10 2, exampleRegister "b" 15 1], r.start = S) ∧
      (∀ r ∈ [exampleRegister "a" 10 2, exampleRegister "b" 15 1], S ≤ r.start) ∧
      [exampleRegister "a" 10 2, exampleRegister "b" 15 1] = pre ++ L :: post ∧
      (∀ r ∈ pre, r.start < L.start) ∧ (∀ r ∈ post, r.start ≤ L.start) ∧
      Registers.GetNum [exampleRegister "a" 10 2, exampleRegister "b" 15 1] =
        some ((L.start + L.num - S) % 65536) :=
  ⟨rfl, rfl, span_attributes [exampleRegister "a" 10 2, exampleRegister "b" 15 1] (by simp)⟩

/-- C6 (as stated, refuted): in the span {start=10,num=10}, {start=15,num=1}
no `start + num` overflows, the span is [10, 16), and the first member's
range [10, 20) is not inside it; `Encode` of "1,2" then slices its 12-byte
buffer out of range. -/
theorem span_coverage_fails :
    (∀ r ∈ [exampleRegister "a" 10 10, exampleRegister "b" 15 1], r.start + r.num < 65536) ∧
    Registers.GetStart [exampleRegister "a" 10 10, exampleRegister "b" 15 1] = some 10 ∧
    Registers.GetNum [exampleRegister "a" 10 10, exampleRegister "b" 15 1] = some 6 ∧
    ¬ (∀ r ∈ [exampleRegister "a" 10 10, exampleRegister "b" 15 1],
        10 ≤ r.start ∧ r.start + r.num ≤ 10 + 6) ∧
    (Registers.Encode [exampleRegister "a" 10 10, exampleRegister "b" 15 1] "1,2").res =
      .panic := by
  refine ⟨?_, rfl, rfl, ?_, rfl⟩
  · intro r hr
    simp [exampleRegister] at hr
    rcases hr with rfl | rfl <;> simp
  · intro h
    have := h (exampleRegister "a" 10 10) (by simp)
    simp [exampleRegister] at this

/-- In a span with no 16-bit overflow in `start + num` of any member, in which
no member ends beyond the member `L` that `getLastRegister` returns, the
range `[GetStart, GetStart + GetNum)` contains the range of every member; and
when `GetNum * 2` does not overflow 16 bits either, the byte window `Encode`
computes for a member is `(start - GetStart) * 2 .. + num * 2` and lies inside
the output buffer. -/
theorem span_coverage_of_last_end (rs : Registers M) (L : Register M) (hne : rs ≠ [])
    (hov : ∀ r ∈ rs, r.start + r.num < 65536)
    (hL : Registers.getLastRegister rs = some L)
    (hend : ∀ r ∈ rs, r.start + r.num ≤ L.start + L.num) :
    ∃ S N, Registers.GetStart rs = some S ∧ Registers.GetNum rs = some N ∧
      (∀ r ∈ rs, S ≤ r.start ∧ r.start + r.num ≤ S + N) ∧
      (N * 2 < 65536 → ∀ r ∈ rs,
        mul16 (sub16 r.start S) 2 = (r.start - S) * 2 ∧
        add16 (mul16 (sub16 r.start S) 2) (mul16 r.num 2) = (r.start - S) * 2 + r.num * 2 ∧
        (r.start - S) * 2 + r.num * 2 ≤ (List.replicate (mul16 N 2) 0).length) := by
  obtain ⟨S, hS, hex, hmin⟩ := GetStart_spec rs hne
  obtain ⟨pre, L', post, hrs, hL', hpre, hpost⟩ := getLastRegister_spec rs hne
  have hLL : L' = L := by rw [hL] at hL'; exact (Option.some.inj hL').symm
  subst hLL
  have hLmem : L' ∈ rs := by rw [hrs]; simp
  have hSL : S ≤ L'.start := hmin L' hLmem
  have hLov := hov L' hLmem
  have hN : sub16 (add16 L'.start L'.num) S = L'.start + L'.num - S := by
    simp only [sub16, add16]
    omega
  refine ⟨S, L'.start + L'.num - S, hS, ?_, ?_, ?_⟩
  · rw [GetNum_eq rs L' S hL hS, hN]
  · intro r hr
    have h1 := hmin r hr
    have h2 := hend r hr
    omega
  · intro h2N r hr
    have h1 := hmin r hr
    have h2 := hend r hr
    have h3 := hov r hr
    simp only [sub16, add16, mul16, List.length_replicate]
    omega

/-- In a span whose members have at least one word each and pairwise disjoint
address ranges, no member ends beyond the member `getLastRegister` returns. -/
theorem last_end_of_disjoint (rs : Registers M) (hne : rs ≠ [])
    (hpos : ∀ r ∈ rs, 1 ≤ r.num) (hdisj : rs.Pairwise AddrDisjoint) :
    ∃ L, Registers.getLastRegister rs = some L ∧
      ∀ r ∈ rs, r.start + r.num ≤ L.start + L.num := by
  obtain ⟨pre, L, post, hrs, hL, hpre, hpost⟩ := getLastRegister_spec rs hne
  refine ⟨L, hL, ?_⟩
  have hLpos : 1 ≤ L.num := hpos L (by rw [hrs]; simp)
  rw [hrs, List.pairwise_append, List.pairwise_cons] at hdisj
  obtain ⟨_, ⟨hLpost, _⟩, hcross⟩ := hdisj
  intro r hr
  rw [hrs] at hr
  have hrpos : 1 ≤ r.num := hpos r (by rw [hrs]; exact hr)
  rcases List.mem_append.mp hr with hr | hr
  · have hlt := hpre r hr
    have hd := hcross r hr L (List.mem_cons_self _ _) L.start
    by_contra hcon
    exact hd ⟨by omega, by omega, le_refl _, by omega⟩
  · rcases List.mem_cons.mp hr with rfl | hr
    · exact le_refl _
    · have hle := hpost r hr
      have hd := hLpost r hr L.start
      by_contra hcon
      exact hd ⟨le_refl _, by omega, hle, by omega⟩

/-- C6 (amended): for a non-empty span with no 16-bit overflow in
`start + num` of any member, whose members have at least one word each and
pairwise disjoint address ranges, the range `[GetStart, GetStart + GetNum)`
contains the range of every member; and when `GetNum * 2` does not overflow
16 bits either, the byte window `Encode` computes for a member is
`(start - GetStart) * 2 .. + num * 2` and lies inside the output buffer. -/
theorem span_coverage (rs : Registers M) (hne : rs ≠ [])
    (hov : ∀ r ∈ rs, r.start + r.num < 65536)
    (hpos : ∀ r ∈ rs, 1 ≤ r.num)
    (hdisj : rs.Pairwise AddrDisjoint) :
    ∃ S N, Registers.GetStart rs = some S ∧ Registers.GetNum rs = some N ∧
      (∀ r ∈ rs, S ≤ r.start ∧ r.start + r.num ≤ S + N) ∧
      (N * 2 < 65536 → ∀ r ∈ rs,
        mul16 (sub16 r.start S) 2 = (r.start - S) * 2 ∧
        add16 (mul16 (sub16 r.start S) 2) (mul16 r.num 2) = (r.start - S) * 2 + r.num * 2 ∧
        (r.start - S) * 2 + r.num * 2 ≤ (List.replicate (mul16 N 2) 0).length) := by
  obtain ⟨L, hL, hend⟩ := last_end_of_disjoint rs hne hpos hdisj
  exact span_coverage_of_last_end rs L hne hov hL hend

/-- The coverage of C6 on the span declared {start=12,num=3},
{start=15,num=1}, {start=10,num=2}: the span is [10, 16). -/
theorem span_coverage_witness :
    Registers.GetStart [exampleRegister "c" 12 3, exampleRegister "b" 15 1,
      exampleRegister "a" 10 2] = some 10 ∧
    Registers.GetNum [exampleRegister "c" 12 3, exampleRegister "b" 15 1,
      exampleRegister "a" 10 2] = some 6 ∧
    ∃ S N, Registers.GetStart [exampleRegister "c" 12 3, exampleRegister "b" 15 1,
        exampleRegister "a" 10 2] = some S ∧
      Registers.GetNum [exampleRegister "c" 12 3, exampleRegister "b" 15 1,
        exampleRegister "a" 10 2] = some N ∧
      (∀ r ∈ [exampleRegister "c" 12 3, exampleRegister "b" 15 1, exampleRegister "a" 10 2],
        S ≤ r.start ∧ r.start + r.num ≤ S + N) ∧
      (N * 2 < 65536 →
        ∀ r ∈ [exampleRegister "c" 12 3, exampleRegister "b" 15 1, exampleRegister "a" 10 2],
        mul16 (sub16 r.start S) 2 = (r.start - S) * 2 ∧
        add16 (mul16 (sub16 r.start S) 2) (mul16 r.num 2) = (r.start - S) * 2 + r.num * 2 ∧
        (r.start - S) * 2 + r.num * 2 ≤ (List.replicate (mul16 N 2) 0).length) :=
  ⟨rfl, rfl,
   span_coverage [exampleRegister "c" 12 3, exampleRegister "b" 15 1, exampleRegister "a" 10 2]
    (by simp)
    (by
      intro r hr
      simp only [List.mem_cons, List.mem_singleton, List.not_mem_nil, or_false] at hr
      rcases hr with rfl | rfl | rfl <;> simp [exampleRegister])
    (by
      intro r hr
      simp only [List.mem_cons, List.mem_singleton, List.not_mem_nil, or_false] at hr
      rcases hr with rfl | rfl | rfl <;> simp [exampleRegister])
    (by
      simp only [List.pairwise_cons, List.mem_cons, List.mem_singleton, List.not_mem_nil,
        or_false, forall_eq_or_imp, forall_eq, List.Pairwise.nil, and_true, false_implies,
        implies_true]
      refine ⟨⟨?_, ?_⟩, ?_⟩ <;>
      · intro x hx
        simp [exampleRegister] at hx
        omega)⟩

/-! ## Encode -/

/-- Splitting on commas always yields at least one field. -/
theorem splitComma_length_pos (cs : List Char) : 1 ≤ (splitComma cs).length := by
  induction cs with
  | nil => simp [splitComma]
  | cons c cs ih =>
    unfold splitComma
    split
    · simp
    · split
      · simp
      · simp

/-- `Split` always yields at least one field. -/
theorem Split_length_pos (v : String) : 1 ≤ (Split v).length := by
  simp only [Split, List.length_map]
  exact splitComma_length_pos v.data

/-- C9: the text always splits into at least one field; when the number of
fields differs from the number of members, `Encode` returns the
parameter-count error with no buffer, having invoked no member encoder and
without panicking on a span attribute; so `Encode` on the empty span always
returns this error. -/
theorem Encode_param_count (rs : Registers M) (v : String) :
    1 ≤ (Split v).length ∧
    ((Split v).length ≠ rs.length →
      Registers.Encode rs v = { res := .err .paramCount, calls := [] }) ∧
    Registers.Encode ([] : Registers M) v = { res := .err .paramCount, calls := [] } := by
  have hpos := Split_length_pos v
  refine ⟨hpos, ?_, ?_⟩
  · intro h
    unfold Registers.Encode
    simp only []
    rw [if_pos (fun e => h e.symm)]
  · unfold Registers.Encode
    simp only []
    rw [if_pos (by simp only [List.length_nil]; omega)]

/-- The mismatch of C9: a 2-member span with the 3-value text "1,2,3" fails
with the parameter-count error. -/
theorem Encode_param_count_witness :
    (Split "1,2,3").length = 3 ∧
    Registers.Encode [exampleRegister "a" 10 1, exampleRegister "b" 11 1] "1,2,3" =
      { res := .err .paramCount, calls := [] } :=
  ⟨by decide,
   (Encode_param_count [exampleRegister "a" 10 1, exampleRegister "b" 11 1] "1,2,3").2.1
     (by decide)⟩

/-- `copy` into a window inside the buffer keeps the buffer's length. -/
theorem copyInto_length (buf : List Nat) (start end_ : Nat) (b : List Nat)
    (h1 : start ≤ end_) (h2 : end_ ≤ buf.length) :
    (copyInto buf start end_ b).length = buf.length := by
  simp only [copyInto, List.length_append, List.length_take, List.length_drop]
  omega

/-- The `Encode` loop over members whose encoders succeed and whose windows
fit the buffer reaches the next member with a buffer of the same length,
having invoked exactly their encoders, in order. -/
theorem encodeLoop_prefix (rs : Registers M) (S len : Nat)
    (hS : Registers.GetStart rs = some S)
    (ppre rest : List (Register M × String)) (index : Nat) (buf : List Nat)
    (calls : List (Nat × String)) (hbuf : buf.length = len)
    (hpre : ∀ p ∈ ppre, ∃ w b, p.1.encoder = some w ∧ w p.2 = .ok b ∧
      mul16 (sub16 p.1.start S) 2 ≤ add16 (mul16 (sub16 p.1.start S) 2) (mul16 p.1.num 2) ∧
      add16 (mul16 (sub16 p.1.start S) 2) (mul16 p.1.num 2) ≤ len) :
    ∃ buf', buf'.length = len ∧
      encodeLoop rs index (ppre ++ rest) buf calls =
        encodeLoop rs (index + ppre.length) rest buf'
          (calls ++ (List.range' index ppre.length).zip (ppre.map Prod.snd)) := by
  induction ppre generalizing index buf calls with
  | nil => exact ⟨buf, hbuf, by simp⟩
  | cons p tl ih =>
    obtain ⟨r, v⟩ := p
    obtain ⟨w, b, hw, hb, h1, h2⟩ := hpre (r, v) (List.mem_cons_self _ _)
    simp only at hw hb h1 h2
    have hlen1 : (copyInto buf (mul16 (sub16 r.start S) 2)
        (add16 (mul16 (sub16 r.start S) 2) (mul16 r.num 2)) b).length = len := by
      rw [copyInto_length _ _ _ _ h1 (by omega), hbuf]
    obtain ⟨buf', hbuf', heq⟩ := ih (index + 1) _ (calls ++ [(index, v)]) hlen1
      (fun q hq => hpre q (List.mem_cons_of_mem _ hq))
    refine ⟨buf', hbuf', ?_⟩
    have hstep : encodeLoop rs index ((r, v) :: tl ++ rest) buf calls =
        encodeLoop rs (index + 1) (tl ++ rest)
          (copyInto buf (mul16 (sub16 r.start S) 2)
            (add16 (mul16 (sub16 r.start S) 2) (mul16 r.num 2)) b)
          (calls ++ [(index, v)]) := by
      simp only [List.cons_append, encodeLoop, hw, hb, hS]
      rw [if_pos ⟨h1, by omega⟩]
      rfl
    rw [hstep, heq]
    have e1 : index + 1 + tl.length = index + (tl.length + 1) := by omega
    simp [List.range'_succ, e1]

/-- C10: in a non-empty span `pre ++ r :: post` encoded from a text with one
value per member, when the encoders of the members `pre` succeed and their
windows fit the buffer, and `r` is the first member that either is not an
`Encoder` or whose encoder fails, `Encode` returns an error and no buffer:
the unsupported-write error in the first case, the member encoder's own error
in the second.  The encoders invoked are those of `pre`, in order, and then
that of `r` when it has one; those of `post` are not invoked. -/
theorem Encode_first_bad_member (pre post : Registers M) (r : Register M) (value : String)
    (vpre vpost : List String) (v : String) (S N : Nat)
    (hsplit : Split value = vpre ++ v :: vpost)
    (hlpre : vpre.length = pre.length) (hlpost : vpost.length = post.length)
    (hS : Registers.GetStart (pre ++ r :: post) = some S)
    (hN : Registers.GetNum (pre ++ r :: post) = some N)
    (hpre : ∀ p ∈ pre.zip vpre, ∃ w b, p.1.encoder = some w ∧ w p.2 = .ok b ∧
      mul16 (sub16 p.1.start S) 2 ≤ add16 (mul16 (sub16 p.1.start S) 2) (mul16 p.1.num 2) ∧
      add16 (mul16 (sub16 p.1.start S) 2) (mul16 p.1.num 2) ≤ mul16 N 2) :
    (r.encoder = none →
      Registers.Encode (pre ++ r :: post) value =
        { res := .err .unsupportedWrite, calls := (List.range pre.length).zip vpre }) ∧
    (∀ w e, r.encoder = some w → w v = .error e →
      Registers.Encode (pre ++ r :: post) value =
        { res := .err (.member e),
          calls := (List.range pre.length).zip vpre ++ [(pre.length, v)] }) := by
  have hzip : (pre ++ r :: post).zip (vpre ++ v :: vpost) =
      pre.zip vpre ++ (r, v) :: post.zip vpost := by
    rw [List.zip_append hlpre.symm]
    rfl
  have hlen : (pre ++ r :: post).length = (Split value).length := by
    rw [hsplit]
    simp [hlpre, hlpost]
  have hzl : (pre.zip vpre).length = pre.length := by
    simp [List.length_zip, hlpre]
  have hsnd : (pre.zip vpre).map Prod.snd = vpre := by
    apply List.map_snd_zip
    omega
  obtain ⟨buf', _, heq⟩ := encodeLoop_prefix (pre ++ r :: post) S (mul16 N 2) hS
    (pre.zip vpre) ((r, v) :: post.zip vpost) 0 (List.replicate (mul16 N 2) 0) []
    (by simp) hpre
  have hE : Registers.Encode (pre ++ r :: post) value =
      encodeLoop (pre ++ r :: post) pre.length ((r, v) :: post.zip vpost) buf'
        ((List.range pre.length).zip vpre) := by
    unfold Registers.Encode
    simp only []
    rw [if_neg (by simpa using hlen), hN, hsplit]
    simp only [hzip, heq, hzl, hsnd, List.nil_append, Nat.zero_add, List.range_eq_range']
  constructor
  · intro hnone
    rw [hE]
    simp [encodeLoop, hnone]
  · intro w e hw he
    rw [hE]
    simp [encodeLoop, hw, he]

/-- The two cases of C10 on three members with texts of three values: the
second member is read-only, or its text "x" is not a number; the first
member's encoder is invoked, the third member's is not. -/
theorem Encode_first_bad_member_witness :
    Registers.Encode
        ([exampleRegister "a" 10 1] ++
          { exampleRegister "b" 11 1 with encoder := none } :: [exampleRegister "c" 12 1])
        "1,2,3" =
      { res := .err .unsupportedWrite, calls := [(0, "1")] } ∧
    Registers.Encode
        ([exampleRegister "a" 10 1] ++ exampleRegister "b" 11 1 :: [exampleRegister "c" 12 1])
        "1,x,3" =
      { res := .err (.member "not a number"), calls := [(0, "1"), (1, "x")] } :=
  ⟨(Encode_first_bad_member [exampleRegister "a" 10 1] [exampleRegister "c" 12 1]
      { exampleRegister "b" 11 1 with encoder := none } "1,2,3" ["1"] ["3"] "2" 10 3
      (by decide) rfl rfl rfl rfl
      (by
        intro p hp
        simp only [List.zip_cons_cons, List.zip_nil_right, List.mem_singleton] at hp
        subst hp
        exact ⟨exampleEncode 1, [0, 1], rfl, rfl, by decide, by decide⟩)).1 rfl,
   (Encode_first_bad_member [exampleRegister "a" 10 1] [exampleRegister "c" 12 1]
      (exampleRegister "b" 11 1) "1,x,3" ["1"] ["3"] "x" 10 3
      (by decide) rfl rfl rfl rfl
      (by
        intro p hp
        simp only [List.zip_cons_cons, List.zip_nil_right, List.mem_singleton] at hp
        subst hp
        exact ⟨exampleEncode 1, [0, 1], rfl, rfl, by decide, by decide⟩)).2
      (exampleEncode 1) "not a number" rfl rfl⟩

/-! ## Decode -/

/-- Neither loop of `Decode` returns the short-payload error. -/
theorem decodeLoop_ne_shortPayload (relative : Bool) (rs : Registers M) (data : List Nat)
    (l index : Nat) (rest : List (Register M)) (m : M) (calls : List DecodeCall) :
    (decodeLoop relative rs data l index rest m calls).res ≠ .err .shortPayload := by
  induction rest generalizing index m calls with
  | nil => simp [decodeLoop]
  | cons r tl ih =>
    unfold decodeLoop
    split
    · simp
    · split
      · simp
      · simp only []
        split
        · simp
        · split
          · simp
          · exact ih _ _ _

/-- C4 (the code at a failing input): `Decode` returns the short-payload
error on no input at all, its `switch` testing an unsigned `result` for
`< 0`.  On the span {start=0,num=1}, {start=1,num=1} (4 bytes) and the
2-byte payload 01 02 it takes the absolute-offset loop, invokes the first
member's decoder, which writes to the map, and returns the bounds error at
the second member. -/
theorem Decode_short_payload_not_rejected :
    (∀ (M : Type) (rs : Registers M) (data : List Nat) (m : M),
      (Registers.Decode rs data m).res ≠ .err .shortPayload) ∧
    Registers.GetNum [exampleRegister "a" 0 1, exampleRegister "b" 1 1] = some 2 ∧
    (Registers.Decode [exampleRegister "a" 0 1, exampleRegister "b" 1 1] [1, 2] []).res =
      .err (.bounds "b" 2 4 2) ∧
    (Registers.Decode [exampleRegister "a" 0 1, exampleRegister "b" 1 1] [1, 2] []).m =
      [("a", [1, 2])] ∧
    (Registers.Decode [exampleRegister "a" 0 1, exampleRegister "b" 1 1] [1, 2] []).calls =
      [{ index := 0, start := 0, end_ := 2, window := [1, 2] }] := by
  refine ⟨?_, rfl, rfl, rfl, rfl⟩
  intro M rs data m
  unfold Registers.Decode
  split
  · simp
  · simp only []
    split
    · exact decodeLoop_ne_shortPayload _ _ _ _ _ _ _ _
    · split
      · exact decodeLoop_ne_shortPayload _ _ _ _ _ _ _ _
      · split
        · rename_i h
          exact absurd h (Nat.not_lt_zero _)
        · simp

/-- C5 (the code at a failing input): on the one-member span {start=1,num=1}
and the 3-byte payload 01 02 03, `Decode` takes the absolute-offset loop; the
member's window is [2, 4), whose end exceeds the length 3, yet the test
against `l+1` lets it through and `data[2:4]` is evaluated: no bounds error
is returned. -/
theorem Decode_window_past_end :
    mul16 (exampleRegister "a" 1 1).start 2 = 2 ∧
    add16 (mul16 (exampleRegister "a" 1 1).start 2) (mul16 (exampleRegister "a" 1 1).num 2) = 4 ∧
    ¬ (2 > add16 ([1, 2, 3] : List Nat).length 1 ∨ 4 > add16 ([1, 2, 3] : List Nat).length 1) ∧
    slice [1, 2, 3] 2 4 = none ∧
    (Registers.Decode [exampleRegister "a" 1 1] [1, 2, 3] []).res = .panic := by
  refine ⟨rfl, rfl, by decide, rfl, rfl⟩

/-! ## Encode: the layout of the buffer -/

/-- The bytes of a buffer after `copy` into a window that the source fills
exactly. -/
theorem copyInto_getElem? (buf : List Nat) (start end_ : Nat) (b : List Nat)
    (h1 : start ≤ end_) (h2 : end_ ≤ buf.length) (hb : b.length = end_ - start) (j : Nat) :
    (copyInto buf start end_ b)[j]? =
      if start ≤ j ∧ j < end_ then b[j - start]? else buf[j]? := by
  have hn : min (end_ - start) b.length = b.length := by omega
  have e : copyInto buf start end_ b = buf.take start ++ (b ++ buf.drop end_) := by
    simp only [copyInto, hn, List.take_length, List.append_assoc]
    congr 3
    omega
  rw [e]
  by_cases hj : j < start
  · rw [List.getElem?_append_left (by simp; omega)]
    rw [if_neg (by omega)]
    simp [List.getElem?_take, hj]
  · have hlt : (List.take start buf).length = start := by simp; omega
    rw [List.getElem?_append_right (by omega), hlt]
    by_cases hj2 : j < end_
    · rw [if_pos ⟨by omega, hj2⟩]
      rw [List.getElem?_append_left (by omega)]
    · rw [if_neg (by omega)]
      rw [List.getElem?_append_right (by omega)]
      rw [List.getElem?_drop]
      congr 1
      omega

/-- Two registers with disjoint address ranges have disjoint windows. -/
theorem window_disjoint (s : Nat) (a b : Register M) (h : AddrDisjoint a b)
    (ha : s ≤ a.start) (hb : s ≤ b.start) (j : Nat) (hja : InWindow s a j) :
    ¬ InWindow s b j := by
  intro hjb
  unfold InWindow at hja hjb
  apply h (s + j / 2)
  omega

/-- The `Encode` loop over members that are covered by the span, whose
encoders return `num * 2` bytes, in a buffer of `N * 2 < 2^16` bytes: it
returns a buffer of that length; a byte in no member's window is left as it
was; and when the members' ranges are pairwise disjoint each window holds the
member's encoding. -/
theorem encodeLoop_layout (rs : Registers M) (S N : Nat)
    (hS : Registers.GetStart rs = some S) (h2N : N * 2 < 65536)
    (pairs : List (Register M × String)) (index : Nat) (buf : List Nat)
    (calls : List (Nat × String)) (hbuf : buf.length = N * 2)
    (hok : ∀ p ∈ pairs, ∃ w b, p.1.encoder = some w ∧ w p.2 = .ok b ∧
      b.length = p.1.num * 2 ∧ S ≤ p.1.start ∧ p.1.start + p.1.num ≤ S + N) :
    ∃ buf', (encodeLoop rs index pairs buf calls).res = .ok buf' ∧ buf'.length = N * 2 ∧
      (∀ j, (∀ p ∈ pairs, ¬ InWindow S p.1 j) → buf'[j]? = buf[j]?) ∧
      (pairs.Pairwise (fun p q => AddrDisjoint p.1 q.1) →
        ∀ p ∈ pairs, ∀ w b, p.1.encoder = some w → w p.2 = .ok b →
          ∀ t, t < p.1.num * 2 → buf'[(p.1.start - S) * 2 + t]? = b[t]?) := by
  induction pairs generalizing index buf calls with
  | nil => exact ⟨buf, rfl, hbuf, fun _ _ => rfl, fun _ p hp => absurd hp (List.not_mem_nil p)⟩
  | cons p tl ih =>
    obtain ⟨r, v⟩ := p
    obtain ⟨w, b, hw, hb, hbl, hSr, hcov⟩ := hok (r, v) (List.mem_cons_self _ _)
    simp only at hw hb hbl hSr hcov
    have hst : mul16 (sub16 r.start S) 2 = (r.start - S) * 2 := by
      simp only [mul16, sub16]
      omega
    have hen : add16 ((r.start - S) * 2) (mul16 r.num 2) = (r.start - S) * 2 + r.num * 2 := by
      simp only [add16, mul16]
      omega
    have hfit : (r.start - S) * 2 + r.num * 2 ≤ buf.length := by omega
    have hlen1 : (copyInto buf ((r.start - S) * 2) ((r.start - S) * 2 + r.num * 2) b).length
        = N * 2 := by
      rw [copyInto_length _ _ _ _ (by omega) hfit, hbuf]
    obtain ⟨buf', hres, hlen', hout, hin⟩ := ih (index + 1) _ (calls ++ [(index, v)]) hlen1
      (fun q hq => hok q (List.mem_cons_of_mem _ hq))
    have hstep : encodeLoop rs index ((r, v) :: tl) buf calls =
        encodeLoop rs (index + 1) tl
          (copyInto buf ((r.start - S) * 2) ((r.start - S) * 2 + r.num * 2) b)
          (calls ++ [(index, v)]) := by
      simp only [encodeLoop, hw, hb, hS, hst, hen]
      rw [if_pos ⟨by omega, hfit⟩]
    have hcopy := copyInto_getElem? buf ((r.start - S) * 2) ((r.start - S) * 2 + r.num * 2) b
      (by omega) hfit (by omega)
    refine ⟨buf', by rw [hstep, hres], hlen', ?_, ?_⟩
    · intro j hj
      rw [hout j (fun q hq => hj q (List.mem_cons_of_mem _ hq)), hcopy j]
      have hnr : ¬ ((r.start - S) * 2 ≤ j ∧ j < (r.start - S) * 2 + r.num * 2) :=
        hj (r, v) (List.mem_cons_self _ _)
      rw [if_neg hnr]
    · intro hpw q hq w' b' hw' hb' t ht
      rw [List.pairwise_cons] at hpw
      rcases List.mem_cons.mp hq with rfl | hq
      · simp only at hw' hb' ht ⊢
        rw [hw] at hw'
        cases hw'
        rw [hb] at hb'
        cases hb'
        have hjw : (r.start - S) * 2 ≤ (r.start - S) * 2 + t ∧
            (r.start - S) * 2 + t < (r.start - S) * 2 + r.num * 2 := ⟨by omega, by omega⟩
        rw [hout _ (fun q' hq' => ?_), hcopy, if_pos hjw]
        · congr 1
          omega
        · obtain ⟨_, _, _, _, _, hSq, _⟩ := hok q' (List.mem_cons_of_mem _ hq')
          exact window_disjoint S r q'.1 (hpw.1 q' hq') hSr hSq _ hjw
      · exact hin hpw.2 q hq w' b' hw' hb' t ht

/-- `Encode` on a span of pairwise disjoint members covered by the span,
whose encoders return `num * 2` bytes, with `GetNum * 2 < 2^16`: the buffer
returned, byte by byte. -/
theorem Encode_pointwise (rs : Registers M) (value : String) (S N : Nat)
    (hS : Registers.GetStart rs = some S) (hN : Registers.GetNum rs = some N)
    (h2N : N * 2 < 65536) (hlen : (Split value).length = rs.length)
    (hdisj : rs.Pairwise AddrDisjoint)
    (hcov : ∀ r ∈ rs, S ≤ r.start ∧ r.start + r.num ≤ S + N)
    (henc : ∀ p ∈ rs.zip (Split value), ∃ w b, p.1.encoder = some w ∧ w p.2 = .ok b ∧
      b.length = p.1.num * 2) :
    ∃ buf, (Registers.Encode rs value).res = .ok buf ∧ buf.length = N * 2 ∧
      (∀ p ∈ rs.zip (Split value), ∀ w b, p.1.encoder = some w → w p.2 = .ok b →
        ∀ t, t < p.1.num * 2 → buf[(p.1.start - S) * 2 + t]? = b[t]?) ∧
      (∀ j, j < N * 2 → (∀ r ∈ rs, ¬ InWindow S r j) → buf[j]? = some 0) := by
  have hm : mul16 N 2 = N * 2 := by
    simp only [mul16]
    omega
  have hfst : (rs.zip (Split value)).map Prod.fst = rs :=
    List.map_fst_zip _ _ (by omega)
  have hok : ∀ p ∈ rs.zip (Split value), ∃ w b, p.1.encoder = some w ∧ w p.2 = .ok b ∧
      b.length = p.1.num * 2 ∧ S ≤ p.1.start ∧ p.1.start + p.1.num ≤ S + N := by
    intro p hp
    obtain ⟨w, b, h1, h2, h3⟩ := henc p hp
    have hmem : p.1 ∈ rs := (List.of_mem_zip (a := p.1) (b := p.2) hp).1
    exact ⟨w, b, h1, h2, h3, hcov p.1 hmem⟩
  have hpw : (rs.zip (Split value)).Pairwise (fun p q => AddrDisjoint p.1 q.1) := by
    have := hdisj
    rw [← hfst, List.pairwise_map] at this
    exact this
  obtain ⟨buf, hres, hbl, hout, hin⟩ := encodeLoop_layout rs S N hS h2N
    (rs.zip (Split value)) 0 (List.replicate (N * 2) 0) [] (by simp) hok
  refine ⟨buf, ?_, hbl, hin hpw, ?_⟩
  · unfold Registers.Encode
    simp only []
    rw [if_neg (by simpa using hlen.symm), hN]
    simp only [hm]
    exact hres
  · intro j hj hno
    rw [hout j (fun p hp => hno p.1 (List.of_mem_zip (a := p.1) (b := p.2) hp).1)]
    simp [List.getElem?_replicate, hj]

/-- In a span covered by `[S, S + N)` with `N < 2^16`, the end of the register
`getLastRegister` returns is `S + N`. -/
theorem span_end_eq (rs : Registers M) (S N : Nat)
    (hS : Registers.GetStart rs = some S) (hN : Registers.GetNum rs = some N)
    (hcov : ∀ r ∈ rs, S ≤ r.start ∧ r.start + r.num ≤ S + N) :
    ∃ L ∈ rs, L.start + L.num = S + N := by
  have hne : rs ≠ [] := by
    rintro rfl
    simp [Registers.GetStart] at hS
  obtain ⟨pre, L, post, hrs, hL, _, _⟩ := getLastRegister_spec rs hne
  have hLmem : L ∈ rs := by rw [hrs]; simp
  refine ⟨L, hLmem, ?_⟩
  have h := GetNum_eq rs L S hL hS
  rw [hN] at h
  have h' := Option.some.inj h
  have ⟨h1, h2⟩ := hcov L hLmem
  simp only [sub16, add16] at h'
  omega

/-- `GetStart` does not depend on the order of the members. -/
theorem GetStart_perm (rs rs' : Registers M) (S : Nat) (hp : rs'.Perm rs)
    (hS : Registers.GetStart rs = some S) : Registers.GetStart rs' = some S := by
  have hne : rs ≠ [] := by
    rintro rfl
    simp [Registers.GetStart] at hS
  have hne' : rs' ≠ [] := by
    rintro rfl
    exact hne (List.Perm.eq_nil hp.symm)
  obtain ⟨S0, hS0, ⟨r0, hr0, e0⟩, hmin0⟩ := GetStart_spec rs hne
  obtain ⟨S1, hS1, ⟨r1, hr1, e1⟩, hmin1⟩ := GetStart_spec rs' hne'
  rw [hS] at hS0
  cases hS0
  have a := hmin0 r1 (hp.mem_iff.mp hr1)
  have b := hmin1 r0 (hp.mem_iff.mpr hr0)
  rw [hS1]
  congr 1
  omega

/-- Disjointness of address ranges is symmetric. -/
theorem AddrDisjoint_symm {a b : Register M} (h : AddrDisjoint a b) : AddrDisjoint b a := by
  intro x hx
  exact h x ⟨hx.2.2.1, hx.2.2.2, hx.1, hx.2.1⟩

/-- Two buffers of the same length that agree on every window of a span and
are zero elsewhere are equal. -/
theorem buffer_ext (S N : Nat) (pairs pairs' : List (Register M × String))
    (buf buf' : List Nat) (hl : buf.length = N * 2) (hl' : buf'.length = N * 2)
    (hmem : ∀ p, p ∈ pairs' ↔ p ∈ pairs)
    (henc : ∀ p ∈ pairs, ∃ w b, p.1.encoder = some w ∧ w p.2 = .ok b ∧
      b.length = p.1.num * 2)
    (hin : ∀ p ∈ pairs, ∀ w b, p.1.encoder = some w → w p.2 = .ok b →
      ∀ t, t < p.1.num * 2 → buf[(p.1.start - S) * 2 + t]? = b[t]?)
    (hin' : ∀ p ∈ pairs', ∀ w b, p.1.encoder = some w → w p.2 = .ok b →
      ∀ t, t < p.1.num * 2 → buf'[(p.1.start - S) * 2 + t]? = b[t]?)
    (hout : ∀ j, j < N * 2 → (∀ p ∈ pairs, ¬ InWindow S p.1 j) → buf[j]? = some 0)
    (hout' : ∀ j, j < N * 2 → (∀ p ∈ pairs', ¬ InWindow S p.1 j) → buf'[j]? = some 0) :
    buf' = buf := by
  apply List.ext_getElem?
  intro j
  by_cases hj : j < N * 2
  · by_cases hex : ∃ p ∈ pairs, InWindow S p.1 j
    · obtain ⟨p, hp, hw⟩ := hex
      obtain ⟨w, b, h1, h2, _⟩ := henc p hp
      have hw' := hw
      unfold InWindow at hw'
      have e : j = (p.1.start - S) * 2 + (j - (p.1.start - S) * 2) := by omega
      rw [e, hin p hp w b h1 h2 _ (by omega), hin' p ((hmem p).mpr hp) w b h1 h2 _ (by omega)]
    · have hno : ∀ p ∈ pairs, ¬ InWindow S p.1 j := fun p hp hw => hex ⟨p, hp, hw⟩
      rw [hout j hj hno, hout' j hj (fun p hp => hno p ((hmem p).mp hp))]
  · rw [List.getElem?_eq_none (by omega), List.getElem?_eq_none (by omega)]

/-- C8 (as stated, refuted): the span {start=0,num=1}, {start=32767,num=1}
has disjoint members covered by the span [0, 32768), and both encoders return
2 bytes; `GetNum * 2` wraps to 0 in 16 bits, the buffer is empty, and `Encode`
of "1,2" slices it out of range instead of returning 65536 bytes. -/
theorem Encode_layout_overflow :
    Registers.GetStart [exampleRegister "a" 0 1, exampleRegister "b" 32767 1] = some 0 ∧
    Registers.GetNum [exampleRegister "a" 0 1, exampleRegister "b" 32767 1] = some 32768 ∧
    [exampleRegister "a" 0 1, exampleRegister "b" 32767 1].Pairwise AddrDisjoint ∧
    (∀ r ∈ [exampleRegister "a" 0 1, exampleRegister "b" 32767 1],
      0 ≤ r.start ∧ r.start + r.num ≤ 0 + 32768) ∧
    (∀ p ∈ [exampleRegister "a" 0 1, exampleRegister "b" 32767 1].zip (Split "1,2"),
      ∃ w b, p.1.encoder = some w ∧ w p.2 = .ok b ∧ b.length = p.1.num * 2) ∧
    (Registers.Encode [exampleRegister "a" 0 1, exampleRegister "b" 32767 1] "1,2").res =
      .panic := by
  have hsp : Split "1,2" = ["1", "2"] := by decide
  refine ⟨rfl, rfl, ?_, ?_, ?_, rfl⟩
  · simp only [List.pairwise_cons, List.mem_singleton, List.not_mem_nil, forall_eq,
      List.Pairwise.nil, and_true, false_implies, implies_true]
    intro x hx
    simp [exampleRegister] at hx
    omega
  · intro r hr
    simp only [List.mem_cons, List.mem_singleton, List.not_mem_nil, or_false] at hr
    rcases hr with rfl | rfl <;> simp [exampleRegister]
  · intro p hp
    rw [hsp] at hp
    simp only [List.zip_cons_cons, List.zip_nil_right, List.mem_cons, List.mem_singleton,
      List.not_mem_nil, or_false] at hp
    rcases hp with rfl | rfl
    · exact ⟨exampleEncode 1, [0, 1], rfl, rfl, rfl⟩
    · exact ⟨exampleEncode 1, [0, 2], rfl, rfl, rfl⟩

/-- C8 (amended): for a span whose members all have encoders, have pairwise
disjoint address ranges covered by the span, and whose encoders succeed with
exactly `num * 2` bytes on the values of the text, and whose `GetNum * 2` does
not overflow 16 bits, `Encode` returns a buffer of `GetNum * 2` bytes in which
each member's window, at offset `(start - GetStart) * 2` and of length
`num * 2`, holds that member's encoding of its value, and every byte in no
window is 0.  Hence a span and text that pair the same members with the same
values in another order (and that the span also covers) encode to the same
buffer. -/
theorem Encode_layout (rs : Registers M) (value : String) (S N : Nat)
    (hS : Registers.GetStart rs = some S) (hN : Registers.GetNum rs = some N)
    (h2N : N * 2 < 65536) (hlen : (Split value).length = rs.length)
    (hdisj : rs.Pairwise AddrDisjoint)
    (hcov : ∀ r ∈ rs, S ≤ r.start ∧ r.start + r.num ≤ S + N)
    (henc : ∀ p ∈ rs.zip (Split value), ∃ w b, p.1.encoder = some w ∧ w p.2 = .ok b ∧
      b.length = p.1.num * 2) :
    ∃ buf, (Registers.Encode rs value).res = .ok buf ∧ buf.length = N * 2 ∧
      (∀ p ∈ rs.zip (Split value), ∀ w b, p.1.encoder = some w → w p.2 = .ok b →
        (buf.drop ((p.1.start - S) * 2)).take (p.1.num * 2) = b) ∧
      (∀ j, j < N * 2 → (∀ r ∈ rs, ¬ InWindow S r j) → buf[j]? = some 0) ∧
      (∀ (rs' : Registers M) (value' : String) (N' : Nat),
        (rs'.zip (Split value')).Perm (rs.zip (Split value)) →
        (Split value').length = rs'.length →
        Registers.GetNum rs' = some N' →
        (∀ r ∈ rs', r.start + r.num ≤ S + N') →
        (Registers.Encode rs' value').res = .ok buf) := by
  obtain ⟨buf, hres, hbl, hin, hout⟩ :=
    Encode_pointwise rs value S N hS hN h2N hlen hdisj hcov henc
  have hfst : (rs.zip (Split value)).map Prod.fst = rs :=
    List.map_fst_zip _ _ (by omega)
  refine ⟨buf, hres, hbl, ?_, hout, ?_⟩
  · intro p hp w b hw hb
    obtain ⟨w0, b0, hw0, hb0, hl0⟩ := henc p hp
    rw [hw] at hw0
    cases hw0
    rw [hb] at hb0
    cases hb0
    apply List.ext_getElem?
    intro t
    by_cases ht : t < p.1.num * 2
    · rw [List.getElem?_take_of_lt ht, List.getElem?_drop]
      exact hin p hp w b hw hb t ht
    · rw [List.getElem?_eq_none (by simp only [List.length_take]; omega),
        List.getElem?_eq_none (by omega)]
  · intro rs' value' N' hperm hlen' hN' hcov'
    have hfst' : (rs'.zip (Split value')).map Prod.fst = rs' :=
      List.map_fst_zip _ _ (by omega)
    have hprs : rs'.Perm rs := by
      have := hperm.map Prod.fst
      rwa [hfst, hfst'] at this
    have hS' : Registers.GetStart rs' = some S := GetStart_perm rs rs' S hprs hS
    have hne' : rs' ≠ [] := by
      rintro rfl
      simp [Registers.GetStart] at hS'
    obtain ⟨_, hS1, _, hmin'⟩ := GetStart_spec rs' hne'
    rw [hS'] at hS1
    cases hS1
    have hcov1 : ∀ r ∈ rs', S ≤ r.start ∧ r.start + r.num ≤ S + N' :=
      fun r hr => ⟨hmin' r hr, hcov' r hr⟩
    obtain ⟨L, hLm, hLe⟩ := span_end_eq rs S N hS hN hcov
    obtain ⟨L', hLm', hLe'⟩ := span_end_eq rs' S N' hS' hN' hcov1
    have hNN : N' = N := by
      have a := (hcov L' (hprs.mem_iff.mp hLm')).2
      have b := hcov' L (hprs.mem_iff.mpr hLm)
      omega
    subst hNN
    have hdisj' : rs'.Pairwise AddrDisjoint :=
      (hprs.pairwise_iff (fun h => AddrDisjoint_symm h)).mpr hdisj
    have henc' : ∀ p ∈ rs'.zip (Split value'), ∃ w b, p.1.encoder = some w ∧
        w p.2 = .ok b ∧ b.length = p.1.num * 2 :=
      fun p hp => henc p (hperm.mem_iff.mp hp)
    obtain ⟨buf', hres', hbl', hin', hout'⟩ :=
      Encode_pointwise rs' value' S N' hS' hN' h2N hlen' hdisj' hcov1 henc'
    have hmemfst : ∀ (l : Registers M) (vs : List String), (l.zip vs).map Prod.fst = l →
        ∀ j, (∀ p ∈ l.zip vs, ¬ InWindow S p.1 j) → ∀ r ∈ l, ¬ InWindow S r j := by
      intro l vs hl j h r hr
      rw [← hl, List.mem_map] at hr
      obtain ⟨p, hp, rfl⟩ := hr
      exact h p hp
    have heq : buf' = buf :=
      buffer_ext S N' (rs.zip (Split value)) (rs'.zip (Split value')) buf buf' hbl hbl'
        (fun p => hperm.mem_iff) henc hin hin'
        (fun j hj h => hout j hj (hmemfst rs _ hfst j h))
        (fun j hj h => hout' j hj (hmemfst rs' _ hfst' j h))
    rw [hres', heq]

/-- The encoding of C8 on the members declared {B(start=12), A(start=10)} with
the text "5,7": A's encoding of "7" is at offset 0 and B's encoding of "5" at
offset 4, and the span declared {A, B} with "7,5" encodes to the same
buffer. -/
theorem Encode_layout_witness :
    (Registers.Encode [exampleRegister "B" 12 1, exampleRegister "A" 10 1] "5,7").res =
      .ok [0, 7, 0, 0, 0, 5] ∧
    (Registers.Encode [exampleRegister "A" 10 1, exampleRegister "B" 12 1] "7,5").res =
      .ok [0, 7, 0, 0, 0, 5] ∧
    ∃ buf, (Registers.Encode [exampleRegister "B" 12 1, exampleRegister "A" 10 1] "5,7").res
        = .ok buf ∧ buf.length = 3 * 2 ∧
      (∀ p ∈ [exampleRegister "B" 12 1, exampleRegister "A" 10 1].zip (Split "5,7"),
        ∀ w b, p.1.encoder = some w → w p.2 = .ok b →
          (buf.drop ((p.1.start - 10) * 2)).take (p.1.num * 2) = b) ∧
      (∀ j, j < 3 * 2 →
        (∀ r ∈ [exampleRegister "B" 12 1, exampleRegister "A" 10 1], ¬ InWindow 10 r j) →
        buf[j]? = some 0) ∧
      (∀ (rs' : Registers ExampleMap) (value' : String) (N' : Nat),
        (rs'.zip (Split value')).Perm
          ([exampleRegister "B" 12 1, exampleRegister "A" 10 1].zip (Split "5,7")) →
        (Split value').length = rs'.length →
        Registers.GetNum rs' = some N' →
        (∀ r ∈ rs', r.start + r.num ≤ 10 + N') →
        (Registers.Encode rs' value').res = .ok buf) :=
  ⟨rfl, rfl,
   Encode_layout [exampleRegister "B" 12 1, exampleRegister "A" 10 1] "5,7" 10 3 rfl rfl
    (by decide) (by decide)
    (by
      simp only [List.pairwise_cons, List.mem_singleton, List.not_mem_nil, forall_eq,
        List.Pairwise.nil, and_true, false_implies, implies_true]
      intro x hx
      simp [exampleRegister] at hx
      omega)
    (by
      intro r hr
      simp only [List.mem_cons, List.mem_singleton, List.not_mem_nil, or_false] at hr
      rcases hr with rfl | rfl <;> simp [exampleRegister])
    (by
      intro p hp
      have hsp : Split "5,7" = ["5", "7"] := by decide
      rw [hsp] at hp
      simp only [List.zip_cons_cons, List.zip_nil_right, List.mem_cons, List.mem_singleton,
        List.not_mem_nil, or_false] at hp
      rcases hp with rfl | rfl
      · exact ⟨exampleEncode 1, [0, 5], rfl, rfl, rfl⟩
      · exact ⟨exampleEncode 1, [0, 7], rfl, rfl, rfl⟩)⟩

/-! ## Decode: the two loops -/

/-- A `Decode` loop over members that are decoders and whose windows pass the
bounds test and lie inside `data` reaches the next member, having invoked
exactly their decoders, in order, on their windows. -/
theorem decodeLoop_prefix (relative : Bool) (rs : Registers M) (data : List Nat) (l S : Nat)
    (hS : relative = true → Registers.GetStart rs = some S)
    (pre rest : List (Register M)) (index : Nat) (m : M) (calls : List DecodeCall)
    (hpre : ∀ r ∈ pre, r.decoder ≠ none ∧
      decodeStart relative S r ≤ add16 l 1 ∧ decodeEnd relative S r ≤ add16 l 1 ∧
      decodeStart relative S r ≤ decodeEnd relative S r ∧
      decodeEnd relative S r ≤ data.length) :
    decodeLoop relative rs data l index (pre ++ rest) m calls =
      decodeLoop relative rs data l (index + pre.length) rest
        (decodedMap (decodeStart relative S) (decodeEnd relative S) data pre m)
        (calls ++ decodeCalls (decodeStart relative S) (decodeEnd relative S) data index pre) := by
  induction pre generalizing index m calls with
  | nil => simp [decodedMap, decodeCalls]
  | cons r tl ih =>
    obtain ⟨hdec, h1, h2, h3, h4⟩ := hpre r (List.mem_cons_self _ _)
    obtain ⟨ro, hro⟩ := Option.ne_none_iff_exists'.mp hdec
    have hst : (if relative = true then
          (Registers.GetStart rs).map (fun s => mul16 (sub16 r.start s) 2)
        else some (mul16 r.start 2)) = some (decodeStart relative S r) := by
      cases relative with
      | true => simp [hS rfl, decodeStart]
      | false => simp [decodeStart]
    have hsl : slice data (decodeStart relative S r) (decodeEnd relative S r) =
        some ((data.take (decodeEnd relative S r)).drop (decodeStart relative S r)) := by
      simp [slice, h3, h4]
    have hstep : decodeLoop relative rs data l index (r :: tl ++ rest) m calls =
        decodeLoop relative rs data l (index + 1) (tl ++ rest)
          (ro ((data.take (decodeEnd relative S r)).drop (decodeStart relative S r)) m)
          (calls ++ [{ index := index, start := decodeStart relative S r,
                       end_ := decodeEnd relative S r,
                       window := (data.take (decodeEnd relative S r)).drop
                         (decodeStart relative S r) }]) := by
      have hend : add16 (decodeStart relative S r) (mul16 r.num 2) = decodeEnd relative S r :=
        rfl
      simp only [List.cons_append, decodeLoop, hro, hst, hend]
      rw [if_neg (by omega), hsl]
      rfl
    rw [hstep, ih (index + 1) _ _ (fun q hq => hpre q (List.mem_cons_of_mem _ hq))]
    have e1 : index + 1 + tl.length = index + (tl.length + 1) := by omega
    simp [decodedMap, decodeCalls, hro, e1]

/-- The map after the decoders ran depends on the window bounds of the
members only. -/
theorem decodedMap_congr (st en st' en' : Register M → Nat) (data : List Nat)
    (rs : List (Register M)) (m : M) (h : ∀ r ∈ rs, st r = st' r ∧ en r = en' r) :
    decodedMap st en data rs m = decodedMap st' en' data rs m := by
  induction rs generalizing m with
  | nil => rfl
  | cons r tl ih =>
    obtain ⟨h1, h2⟩ := h r (List.mem_cons_self _ _)
    have ih' := fun m => ih m (fun q hq => h q (List.mem_cons_of_mem _ hq))
    simp only [decodedMap, h1, h2, ih']

/-- The decoder calls depend on the window bounds of the members only. -/
theorem decodeCalls_congr (st en st' en' : Register M → Nat) (data : List Nat)
    (rs : List (Register M)) (index : Nat) (h : ∀ r ∈ rs, st r = st' r ∧ en r = en' r) :
    decodeCalls st en data index rs = decodeCalls st' en' data index rs := by
  induction rs generalizing index with
  | nil => rfl
  | cons r tl ih =>
    obtain ⟨h1, h2⟩ := h r (List.mem_cons_self _ _)
    have ih' := fun i => ih i (fun q hq => h q (List.mem_cons_of_mem _ hq))
    simp only [decodeCalls, h1, h2, ih']

/-- `Decode` on a non-empty span is one of its two loops, chosen by the
16-bit difference of the payload length and `GetNum * 2`. -/
theorem Decode_eq_loop (rs : Registers M) (data : List Nat) (m : M) (N : Nat)
    (hN : Registers.GetNum rs = some N) :
    Registers.Decode rs data m =
      decodeLoop (decide (sub16 (data.length % 65536) (mul16 N 2) = 0)) rs data
        (data.length % 65536) 0 rs m [] := by
  unfold Registers.Decode
  simp only [hN]
  by_cases h : sub16 (data.length % 65536) (mul16 N 2) = 0
  · simp [h]
  · have hpos : sub16 (data.length % 65536) (mul16 N 2) > 0 := Nat.pos_of_ne_zero h
    simp [h, hpos]

/-- On the span {start=0,num=1}, {start=32767,num=1}, a payload whose length
is 0 in 16 bits takes the relative loop and fails the bounds test at the
first member. -/
theorem Decode_wrapped_span (data : List Nat) (h : data.length % 65536 = 0) :
    (Registers.Decode [exampleRegister "a" 0 1, exampleRegister "b" 32767 1] data []).res =
      .err (.bounds "a" 0 2 0) := by
  unfold Registers.Decode
  simp only [h]
  rfl

/-- C11 (as stated, refuted): the span {start=0,num=1}, {start=32767,num=1}
has decodable members covered by the span [0, 32768); `GetNum * 2` is 65536,
which is 0 in 16 bits.  On a payload of 65536 bytes, and likewise on the
payload of `uint16(GetNum * 2) = 0` bytes, `Decode` takes the relative loop
and returns the bounds error at the first member. -/
theorem Decode_relative_overflow :
    Registers.GetStart [exampleRegister "a" 0 1, exampleRegister "b" 32767 1] = some 0 ∧
    Registers.GetNum [exampleRegister "a" 0 1, exampleRegister "b" 32767 1] = some 32768 ∧
    (∀ r ∈ [exampleRegister "a" 0 1, exampleRegister "b" 32767 1],
      r.decoder ≠ none ∧ 0 ≤ r.start ∧ r.start + r.num ≤ 0 + 32768) ∧
    (List.replicate 65536 0).length = 32768 * 2 ∧
    (Registers.Decode [exampleRegister "a" 0 1, exampleRegister "b" 32767 1]
      (List.replicate 65536 0) []).res = .err (.bounds "a" 0 2 0) ∧
    (Registers.Decode [exampleRegister "a" 0 1, exampleRegister "b" 32767 1] [] []).res =
      .err (.bounds "a" 0 2 0) := by
  have hl : (List.replicate 65536 0).length = 65536 := List.length_replicate _ _
  refine ⟨rfl, rfl, ?_, hl, Decode_wrapped_span _ (by rw [hl]), Decode_wrapped_span _ rfl⟩
  intro r hr
  simp only [List.mem_cons, List.mem_singleton, List.not_mem_nil, or_false] at hr
  rcases hr with rfl | rfl <;> simp [exampleRegister]

/-- C11 (amended): for a span whose members are all decoders and are covered
by the span, with `GetNum * 2` not overflowing 16 bits, and a payload of
exactly `GetNum * 2` bytes, `Decode` returns no error; it invokes each
member's decoder once, in declared order, on the window
`data[(start - GetStart) * 2 : (start - GetStart) * 2 + num * 2]`, each on the
map the previous one left. -/
theorem Decode_relative (rs : Registers M) (data : List Nat) (m : M) (S N : Nat)
    (hS : Registers.GetStart rs = some S) (hN : Registers.GetNum rs = some N)
    (h2N : N * 2 < 65536)
    (hdec : ∀ r ∈ rs, r.decoder ≠ none)
    (hcov : ∀ r ∈ rs, S ≤ r.start ∧ r.start + r.num ≤ S + N)
    (hlen : data.length = N * 2) :
    Registers.Decode rs data m =
      { res := .ok ()
        m := decodedMap (fun r => (r.start - S) * 2) (fun r => (r.start - S) * 2 + r.num * 2)
          data rs m
        calls := decodeCalls (fun r => (r.start - S) * 2)
          (fun r => (r.start - S) * 2 + r.num * 2) data 0 rs } := by
  have hmode : decide (sub16 (data.length % 65536) (mul16 N 2) = 0) = true := by
    rw [decide_eq_true_eq]
    simp only [sub16, mul16, hlen]
    omega
  have hwin : ∀ r ∈ rs, decodeStart true S r = (r.start - S) * 2 ∧
      decodeEnd true S r = (r.start - S) * 2 + r.num * 2 := by
    intro r hr
    obtain ⟨h1, h2⟩ := hcov r hr
    simp only [decodeEnd, decodeStart, if_true, sub16, mul16, add16]
    omega
  have hpre : ∀ r ∈ rs, r.decoder ≠ none ∧
      decodeStart true S r ≤ add16 (data.length % 65536) 1 ∧
      decodeEnd true S r ≤ add16 (data.length % 65536) 1 ∧
      decodeStart true S r ≤ decodeEnd true S r ∧ decodeEnd true S r ≤ data.length := by
    intro r hr
    obtain ⟨h1, h2⟩ := hcov r hr
    obtain ⟨h3, h4⟩ := hwin r hr
    refine ⟨hdec r hr, ?_, ?_, ?_, ?_⟩ <;> simp only [h3, h4, add16, hlen] <;> omega
  have hloop := decodeLoop_prefix true rs data (data.length % 65536) S (fun _ => hS) rs [] 0 m []
    hpre
  rw [List.append_nil] at hloop
  rw [Decode_eq_loop rs data m N hN, hmode, hloop]
  simp only [decodeLoop, List.nil_append]
  rw [decodedMap_congr _ _ _ _ data rs m hwin, decodeCalls_congr _ _ _ _ data rs 0 hwin]

/-- The relative mode of C11 on the span declared {b(start=12), a(start=10)}
with the 6-byte payload 01..06: b is decoded first, on bytes 4..6, then a on
bytes 0..2. -/
theorem Decode_relative_witness :
    Registers.Decode [exampleRegister "b" 12 1, exampleRegister "a" 10 1] [1, 2, 3, 4, 5, 6] []
      = { res := .ok ()
          m := [("b", [5, 6]), ("a", [1, 2])]
          calls := [{ index := 0, start := 4, end_ := 6, window := [5, 6] },
                    { index := 1, start := 0, end_ := 2, window := [1, 2] }] } :=
  (Decode_relative [exampleRegister "b" 12 1, exampleRegister "a" 10 1] [1, 2, 3, 4, 5, 6] []
    10 3 rfl rfl (by decide)
    (by
      intro r hr
      simp only [List.mem_cons, List.mem_singleton, List.not_mem_nil, or_false] at hr
      rcases hr with rfl | rfl <;> simp [exampleRegister])
    (by
      intro r hr
      simp only [List.mem_cons, List.mem_singleton, List.not_mem_nil, or_false] at hr
      rcases hr with rfl | rfl <;> simp [exampleRegister])
    rfl).trans rfl

/-- `Decode` in absolute mode: for a span whose members are all decoders and
a payload longer than `GetNum * 2` and shorter than 65535 bytes that holds
every window `data[start * 2 : start * 2 + num * 2]`, `Decode` returns no
error and invokes each member's decoder once, in declared order, on that
window. -/
theorem Decode_absolute (rs : Registers M) (data : List Nat) (m : M) (N : Nat)
    (hN : Registers.GetNum rs = some N)
    (hdec : ∀ r ∈ rs, r.decoder ≠ none)
    (hlo : N * 2 < data.length) (hhi : data.length < 65535)
    (hwin : ∀ r ∈ rs, r.start * 2 + r.num * 2 ≤ data.length) :
    Registers.Decode rs data m =
      { res := .ok ()
        m := decodedMap (fun r => r.start * 2) (fun r => r.start * 2 + r.num * 2) data rs m
        calls := decodeCalls (fun r => r.start * 2) (fun r => r.start * 2 + r.num * 2)
          data 0 rs } := by
  have hmode : decide (sub16 (data.length % 65536) (mul16 N 2) = 0) = false := by
    rw [decide_eq_false_iff_not]
    simp only [sub16, mul16]
    omega
  have hw : ∀ r ∈ rs, decodeStart false 0 r = r.start * 2 ∧
      decodeEnd false 0 r = r.start * 2 + r.num * 2 := by
    intro r hr
    have h1 := hwin r hr
    simp only [decodeEnd, decodeStart, mul16, add16]
    constructor
    · simp
      omega
    · simp
      omega
  have hpre : ∀ r ∈ rs, r.decoder ≠ none ∧
      decodeStart false 0 r ≤ add16 (data.length % 65536) 1 ∧
      decodeEnd false 0 r ≤ add16 (data.length % 65536) 1 ∧
      decodeStart false 0 r ≤ decodeEnd false 0 r ∧ decodeEnd false 0 r ≤ data.length := by
    intro r hr
    have h1 := hwin r hr
    obtain ⟨h3, h4⟩ := hw r hr
    refine ⟨hdec r hr, ?_, ?_, ?_, ?_⟩ <;> simp only [h3, h4, add16] <;> omega
  have hloop := decodeLoop_prefix false rs data (data.length % 65536) 0
    (fun h => absurd h (by decide)) rs [] 0 m [] hpre
  rw [List.append_nil] at hloop
  rw [Decode_eq_loop rs data m N hN, hmode, hloop]
  simp only [decodeLoop, List.nil_append]
  rw [decodedMap_congr _ _ _ _ data rs m hw, decodeCalls_congr _ _ _ _ data rs 0 hw]

/-- On the one-member span {start=0,num=1}, a payload whose length is 65535
in 16 bits takes the absolute loop, where `l+1` wraps to 0 and the window
[0, 2) fails the bounds test. -/
theorem Decode_wrapped_bound (data : List Nat) (h : data.length % 65536 = 65535) :
    (Registers.Decode [exampleRegister "a" 0 1] data []).res =
      .err (.bounds "a" 0 2 65535) := by
  unfold Registers.Decode
  simp only [h]
  rfl

/-- C12 (the code at a failing input): on the one-member span
{start=0,num=1} (`GetNum * 2 = 2`) and a payload of 65535 bytes, the member's
window [0, 2) lies inside the payload, yet `Decode` returns the bounds error:
`l+1` is 0 in 16 bits. -/
theorem Decode_absolute_at_65535 :
    Registers.GetNum [exampleRegister "a" 0 1] = some 1 ∧
    1 * 2 < (List.replicate 65535 0).length ∧ (List.replicate 65535 0).length < 65536 ∧
    (∀ r ∈ [exampleRegister "a" 0 1],
      r.decoder ≠ none ∧ r.start * 2 + r.num * 2 ≤ (List.replicate 65535 0).length) ∧
    add16 65535 1 = 0 ∧
    (Registers.Decode [exampleRegister "a" 0 1] (List.replicate 65535 0) []).res =
      .err (.bounds "a" 0 2 65535) := by
  have hl : (List.replicate 65535 0).length = 65535 := List.length_replicate _ _
  refine ⟨rfl, by rw [hl]; decide, by rw [hl]; decide, ?_, rfl,
    Decode_wrapped_bound _ (by rw [hl])⟩
  intro r hr
  simp only [List.mem_singleton] at hr
  subst hr
  rw [hl]
  simp [exampleRegister]

/-- C13: in a span `pre ++ r :: post` and a payload shorter than 65535 bytes,
when the members `pre` are decoders whose windows (of the loop `Decode`
takes for this payload) lie inside the payload and `r` is not a decoder,
`Decode` returns the unsupported-read error; the map is the result of the
decoders of `pre` applied in order to the initial map, and no other decoder
is invoked. -/
theorem Decode_not_rolled_back (pre post : Registers M) (r : Register M) (data : List Nat)
    (m : M) (S N : Nat) (relative : Bool)
    (hS : Registers.GetStart (pre ++ r :: post) = some S)
    (hN : Registers.GetNum (pre ++ r :: post) = some N)
    (hlen : data.length < 65535)
    (hrel : relative = decide (sub16 (data.length % 65536) (mul16 N 2) = 0))
    (hr : r.decoder = none)
    (hpre : ∀ p ∈ pre, p.decoder ≠ none ∧
      decodeStart relative S p ≤ decodeEnd relative S p ∧
      decodeEnd relative S p ≤ data.length) :
    Registers.Decode (pre ++ r :: post) data m =
      { res := .err .unsupportedRead
        m := decodedMap (decodeStart relative S) (decodeEnd relative S) data pre m
        calls := decodeCalls (decodeStart relative S) (decodeEnd relative S) data 0 pre } := by
  have hpre' : ∀ p ∈ pre, p.decoder ≠ none ∧
      decodeStart relative S p ≤ add16 (data.length % 65536) 1 ∧
      decodeEnd relative S p ≤ add16 (data.length % 65536) 1 ∧
      decodeStart relative S p ≤ decodeEnd relative S p ∧
      decodeEnd relative S p ≤ data.length := by
    intro p hp
    obtain ⟨h1, h2, h3⟩ := hpre p hp
    refine ⟨h1, ?_, ?_, h2, h3⟩ <;> simp only [add16] <;> omega
  have hloop := decodeLoop_prefix relative (pre ++ r :: post) data (data.length % 65536) S
    (fun _ => hS) pre (r :: post) 0 m [] hpre'
  rw [Decode_eq_loop _ data m N hN, ← hrel, hloop]
  simp [decodeLoop, hr]

/-- The failure of C13 on three members and the 6-byte payload 01..06
(relative loop): the first member is decoded on bytes 0..2 and its entry
stays in the map, the second member is not a decoder, the third is not
decoded. -/
theorem Decode_not_rolled_back_witness :
    Registers.Decode
        ([exampleRegister "a" 10 1] ++
          { exampleRegister "b" 11 1 with decoder := none } :: [exampleRegister "c" 12 1])
        [1, 2, 3, 4, 5, 6] [] =
      { res := .err .unsupportedRead
        m := [("a", [1, 2])]
        calls := [{ index := 0, start := 0, end_ := 2, window := [1, 2] }] } :=
  (Decode_not_rolled_back [exampleRegister "a" 10 1] [exampleRegister "c" 12 1]
    { exampleRegister "b" 11 1 with decoder := none } [1, 2, 3, 4, 5, 6] [] 10 3 true
    rfl rfl (by decide) rfl rfl
    (by
      intro p hp
      simp only [List.mem_singleton] at hp
      subst hp
      exact ⟨by simp [exampleRegister], by decide, by decide⟩)).trans rfl

end Mbserver

namespace Modbus

/-! ## Cursor decoders -/

/-- `BytesToUint16` returns one value per whole pair of bytes. -/
theorem BytesToUint16_length (o : ByteOrder) :
    ∀ xs : List Nat, (BytesToUint16 o xs).length = xs.length / 2
  | [] => by simp [BytesToUint16]
  | [_] => by simp [BytesToUint16]
  | _ :: _ :: rest => by
    simp only [BytesToUint16, List.length_cons, BytesToUint16_length o rest]
    omega

/-- `BytesToUint32` returns one value per whole group of four bytes. -/
theorem BytesToUint32_length (o : ByteOrder) :
    ∀ xs : List Nat, (BytesToUint32 o xs).length = xs.length / 4
  | [] => by simp [BytesToUint32]
  | [_] => by simp [BytesToUint32]
  | [_, _] => by simp [BytesToUint32]
  | [_, _, _] => by simp [BytesToUint32]
  | _ :: _ :: _ :: _ :: rest => by
    simp only [BytesToUint32, List.length_cons, BytesToUint32_length o rest]
    omega

/-- The conversion `(int)(x)` is exact below `2^63`. -/
theorem uintToInt_eq (x : Nat) (h : x < 9223372036854775808) : uintToInt x = (x : Int) := by
  unfold uintToInt
  have e : x % 18446744073709551616 = x := Nat.mod_eq_of_lt (by omega)
  rw [e, if_pos h]

/-- `DecodeUint16s` when `2 * num` does not overflow. -/
theorem DecodeUint16s_eq (o : ByteOrder) (b : List Nat) (n : Nat)
    (h : 2 * n < 9223372036854775808) :
    DecodeUint16s o b n =
      if b.length < 2 * n then some { vals := [], err := some .notEnough, bytes := b }
      else some { vals := BytesToUint16 o (b.take (2 * n)), err := none,
                  bytes := b.drop (2 * n) } := by
  unfold DecodeUint16s
  simp only [uintToInt_eq _ h]
  by_cases hl : b.length < 2 * n
  · rw [if_pos (by exact_mod_cast hl), if_pos hl]
  · rw [if_neg (by exact_mod_cast hl), if_neg hl, if_neg (by omega)]
    simp only [Int.toNat_ofNat, List.drop_zero]

/-- `DecodeUint32s` when `4 * num` does not overflow. -/
theorem DecodeUint32s_eq (o : ByteOrder) (b : List Nat) (n : Nat)
    (h : 4 * n < 9223372036854775808) :
    DecodeUint32s o b n =
      if b.length < 4 * n then some { vals := [], err := some .notEnough, bytes := b }
      else some { vals := BytesToUint32 o (b.take (4 * n)), err := none,
                  bytes := b.drop (4 * n) } := by
  unfold DecodeUint32s
  simp only [uintToInt_eq _ h]
  by_cases hl : b.length < 4 * n
  · rw [if_pos (by exact_mod_cast hl), if_pos hl]
  · rw [if_neg (by exact_mod_cast hl), if_neg hl, if_neg (by omega)]
    simp only [Int.toNat_ofNat, List.drop_zero]

/-- C14: for both byte orders and both widths, when `w * n` does not overflow
the conversion to `int`: a cursor shorter than `w * n` bytes gives the
"bytes is not Enough" error, no values, and is left as it was; otherwise the
call returns the `n` values `BytesToUint16/32` reads from the first `w * n`
bytes, without error, and the cursor becomes the rest. -/
theorem cursor_decoders (o : ByteOrder) (b : List Nat) (n : Nat) :
    (2 * n < 9223372036854775808 →
      (b.length < 2 * n →
        DecodeUint16s o b n = some { vals := [], err := some .notEnough, bytes := b }) ∧
      (2 * n ≤ b.length →
        DecodeUint16s o b n =
          some { vals := BytesToUint16 o (b.take (2 * n)), err := none,
                 bytes := b.drop (2 * n) } ∧
        (BytesToUint16 o (b.take (2 * n))).length = n)) ∧
    (4 * n < 9223372036854775808 →
      (b.length < 4 * n →
        DecodeUint32s o b n = some { vals := [], err := some .notEnough, bytes := b }) ∧
      (4 * n ≤ b.length →
        DecodeUint32s o b n =
          some { vals := BytesToUint32 o (b.take (4 * n)), err := none,
                 bytes := b.drop (4 * n) } ∧
        (BytesToUint32 o (b.take (4 * n))).length = n)) := by
  constructor
  · intro h
    rw [DecodeUint16s_eq o b n h]
    constructor
    · intro hl
      rw [if_pos hl]
    · intro hl
      rw [if_neg (by omega)]
      refine ⟨rfl, ?_⟩
      rw [BytesToUint16_length, List.length_take]
      omega
  · intro h
    rw [DecodeUint32s_eq o b n h]
    constructor
    · intro hl
      rw [if_pos hl]
    · intro hl
      rw [if_neg (by omega)]
      refine ⟨rfl, ?_⟩
      rw [BytesToUint32_length, List.length_take]
      omega

/-- The cursor decoders of C14 on the cursor 01 02 03 04 05: two big-endian
16-bit values leave 05; three are too many; one little-endian 32-bit value
leaves 05. -/
theorem cursor_decoders_witness :
    DecodeUint16s .big [1, 2, 3, 4, 5] 2 =
      some { vals := [0x0102, 0x0304], err := none, bytes := [5] } ∧
    DecodeUint16s .big [1, 2, 3, 4, 5] 3 =
      some { vals := [], err := some .notEnough, bytes := [1, 2, 3, 4, 5] } ∧
    DecodeUint32s .little [1, 2, 3, 4, 5] 1 =
      some { vals := [0x04030201], err := none, bytes := [5] } :=
  ⟨(((cursor_decoders .big [1, 2, 3, 4, 5] 2).1 (by decide)).2 (by decide)).1.trans rfl,
   ((cursor_decoders .big [1, 2, 3, 4, 5] 3).1 (by decide)).1 (by decide),
   (((cursor_decoders .little [1, 2, 3, 4, 5] 1).2 (by decide)).2 (by decide)).1.trans rfl⟩

/-- C15: for either byte order, `EncodeUint16` then `EncodeUint32` append
exactly 6 bytes to the buffer, leaving what it held in front; `DecodeUint16s`
of one value then `DecodeUint32s` of one value on those 6 bytes return the
two values encoded, without error, and leave the cursor empty. -/
theorem encode_decode_stream (o : ByteOrder) (p : List Nat) (a b : Nat)
    (ha : a < 65536) (hb : b < 4294967296) :
    ∃ six rest, EncodeUint32 o (EncodeUint16 o p a) b = p ++ six ∧ six.length = 6 ∧
      DecodeUint16s o six 1 = some { vals := [a], err := none, bytes := rest } ∧
      DecodeUint32s o rest 1 = some { vals := [b], err := none, bytes := [] } := by
  refine ⟨binaryPutUint16 o a ++ binaryPutUint32 o b, binaryPutUint32 o b, ?_, ?_, ?_, ?_⟩
  · simp [EncodeUint32, EncodeUint16]
  · cases o <;> simp [binaryPutUint16, binaryPutUint32]
  · rw [DecodeUint16s_eq _ _ _ (by decide)]
    cases o <;>
      simp [binaryPutUint16, binaryPutUint32, BytesToUint16, binaryUint16] <;> omega
  · rw [DecodeUint32s_eq _ _ _ (by decide)]
    cases o <;>
      simp [binaryPutUint32, BytesToUint32, binaryUint32] <;> omega

/-- The stream of C15 in big-endian order: 0x0102 then 0x0A0B0C0D appended to
the buffer FF. -/
theorem encode_decode_stream_witness :
    EncodeUint32 .big (EncodeUint16 .big [0xFF] 0x0102) 0x0A0B0C0D =
      [0xFF, 1, 2, 0x0A, 0x0B, 0x0C, 0x0D] ∧
    ∃ six rest, EncodeUint32 .big (EncodeUint16 .big [0xFF] 0x0102) 0x0A0B0C0D = [0xFF] ++ six ∧
      six.length = 6 ∧
      DecodeUint16s .big six 1 = some { vals := [0x0102], err := none, bytes := rest } ∧
      DecodeUint32s .big rest 1 = some { vals := [0x0A0B0C0D], err := none, bytes := [] } :=
  ⟨rfl, encode_decode_stream .big [0xFF] 0x0102 0x0A0B0C0D (by decide) (by decide)⟩


/-! ## Exception frames and request builders -/

/-- Setting bit `0x80` of a byte: the low seven bits stay, the bit is set, the
result is a byte and its test in `GetException` succeeds; a byte whose bit
`0x80` is clear fails that test. -/
theorem byte_or_0x80 : ∀ x < 256,
    (x ||| 0x80) % 128 = x % 128 ∧ (x ||| 0x80) / 128 % 2 = 1 ∧ (x ||| 0x80) < 256 ∧
    (x ||| 0x80) &&& 0x80 ≠ 0 ∧ (x / 128 % 2 = 0 → x &&& 0x80 = 0) := by
  decide

/-- C16: after `SetException` with code `e` the function code is the old one
with bit `0x80` set and the low seven bits unchanged, `Data` is the single
byte `e`, `Address` is unchanged and `GetException` returns `e`; and on a
frame whose function code has bit `0x80` clear `GetException` returns 0
whatever its `Data`. -/
theorem exception_frames (f : RTUFrame) (e : Nat) (hf : f.Function < 256) :
    (f.SetException e).Function % 128 = f.Function % 128 ∧
    (f.SetException e).Function / 128 % 2 = 1 ∧
    (f.SetException e).Function < 256 ∧
    (f.SetException e).Data = [e] ∧
    (f.SetException e).Address = f.Address ∧
    GetException (f.SetException e) = some e ∧
    (f.Function / 128 % 2 = 0 → GetException f = some 0) := by
  obtain ⟨h1, h2, h3, h4, h5⟩ := byte_or_0x80 f.Function hf
  refine ⟨h1, h2, h3, rfl, rfl, ?_, ?_⟩
  · simp only [GetException, RTUFrame.SetException]
    rw [if_pos h4]
  · intro h
    simp only [GetException]
    rw [if_neg (by simpa using h5 h)]

/-- The exception frame of C16 from function 3 and code 2: function 0x83,
payload 02; and `GetException` of a plain function-3 frame with empty payload
is 0. -/
theorem exception_frames_witness :
    RTUFrame.SetException ⟨1, 3, [0, 10, 0, 2], 0⟩ 2 = ⟨1, 0x83, [2], 0⟩ ∧
    GetException (RTUFrame.SetException ⟨1, 3, [0, 10, 0, 2], 0⟩ 2) = some 2 ∧
    GetException ⟨1, 3, [], 0⟩ = some 0 :=
  ⟨rfl, (exception_frames ⟨1, 3, [0, 10, 0, 2], 0⟩ 2 (by decide)).2.2.2.2.2.1,
   (exception_frames ⟨1, 3, [], 0⟩ 0 (by decide)).2.2.2.2.2.2 (by decide)⟩

/-- `Uint16ToBytes` writes two bytes per value. -/
theorem Uint16ToBytes_length (o : ByteOrder) (vs : List Nat) :
    (Uint16ToBytes o vs).length = vs.length * 2 := by
  induction vs with
  | nil => rfl
  | cons v vs ih =>
    cases o <;> simp [Uint16ToBytes, binaryPutUint16, ih] <;> omega

/-- The payload `SetDataWithRegisterAndNumberAndValues` builds: register and
number big-endian, the low byte of `2 * len(values)`, the values
big-endian. -/
theorem SetDataWithRegisterAndNumberAndValues_data (f : RTUFrame) (register number : Nat)
    (values : List Nat) :
    (SetDataWithRegisterAndNumberAndValues f register number values).Data =
      [register / 256 % 256, register % 256, number / 256 % 256, number % 256,
        (values.length * 2) % 256] ++ Uint16ToBytes .big values := by
  have hl := Uint16ToBytes_length .big values
  have hrep : List.replicate (5 + values.length * 2) 0 =
      0 :: 0 :: 0 :: 0 :: 0 :: List.replicate (values.length * 2) 0 := by
    rw [Nat.add_comm]
    rfl
  simp only [SetDataWithRegisterAndNumberAndValues, hrep, Mbserver.copyInto, binaryPutUint16]
  simp [hl]
  have ht : List.take (values.length * 2) (Uint16ToBytes .big values) =
      Uint16ToBytes .big values := by
    rw [← hl, List.take_length]
  rw [ht, List.drop_eq_nil_of_le
    (by simp only [List.length_cons, List.length_replicate]; omega), List.append_nil]

/-- C17 (as stated, refuted): with 128 values the byte-count byte is 0, not
the 256 value bytes that follow it. -/
theorem write_request_byte_count_wraps :
    (SetDataWithRegisterAndNumberAndValues ⟨1, 16, [], 0⟩ 0 128 (List.replicate 128 0)).Data[4]?
      = some 0 ∧
    ((SetDataWithRegisterAndNumberAndValues ⟨1, 16, [], 0⟩ 0 128
      (List.replicate 128 0)).Data.drop 5).length = 256 := by
  rw [SetDataWithRegisterAndNumberAndValues_data]
  constructor
  · simp
  · simp [Uint16ToBytes_length]

/-- C17 (amended): for fewer than 128 values (so that the count of value
bytes fits the byte-count byte), `SetDataWithRegisterAndNumberAndValues` sets
`Data` to the register and the number, each as 2 bytes big-endian, one byte
equal to the number `2 * len(values)` of value bytes that follow, and each
value as 2 bytes big-endian in order; `Address` and `Function` are unchanged,
and `GetRegister` on the result returns the register. -/
theorem write_request_layout (f : RTUFrame) (register number : Nat) (values : List Nat)
    (hreg : register < 65536) (hlen : values.length < 128) :
    (SetDataWithRegisterAndNumberAndValues f register number values).Data =
      binaryPutUint16 .big register ++ binaryPutUint16 .big number ++
        [2 * values.length] ++ Uint16ToBytes .big values ∧
    (Uint16ToBytes .big values).length = 2 * values.length ∧
    (SetDataWithRegisterAndNumberAndValues f register number values).Address = f.Address ∧
    (SetDataWithRegisterAndNumberAndValues f register number values).Function = f.Function ∧
    GetRegister (SetDataWithRegisterAndNumberAndValues f register number values) =
      some register := by
  have hmod : values.length * 2 % 256 = 2 * values.length := by omega
  refine ⟨?_, ?_, rfl, rfl, ?_⟩
  · rw [SetDataWithRegisterAndNumberAndValues_data, hmod]
    simp [binaryPutUint16]
  · rw [Uint16ToBytes_length]
    omega
  · simp only [GetRegister]
    rw [SetDataWithRegisterAndNumberAndValues_data]
    simp [binaryUint16]
    omega

/-- The write request of C17 for register 0x1234, number 2 and the values
0x0102, 0xA0B0: payload 12 34 00 02 04 01 02 A0 B0. -/
theorem write_request_layout_witness :
    (SetDataWithRegisterAndNumberAndValues ⟨1, 16, [], 0⟩ 0x1234 2 [0x0102, 0xA0B0]).Data =
      [0x12, 0x34, 0, 2, 4, 1, 2, 0xA0, 0xB0] ∧
    GetRegister (SetDataWithRegisterAndNumberAndValues ⟨1, 16, [], 0⟩ 0x1234 2
      [0x0102, 0xA0B0]) = some 0x1234 :=
  ⟨(write_request_layout ⟨1, 16, [], 0⟩ 0x1234 2 [0x0102, 0xA0B0] (by decide)
      (by decide)).1.trans rfl,
   (write_request_layout ⟨1, 16, [], 0⟩ 0x1234 2 [0x0102, 0xA0B0] (by decide)
      (by decide)).2.2.2.2⟩

end Modbus

namespace Nb

/-! ## Accept-loop backoff -/

/-- A value in the `int64` range is not changed by wrap-around. -/
theorem wrapInt64_eq (y : Int) (h0 : -9223372036854775808 ≤ y) (h1 : y < 9223372036854775808) :
    wrapInt64 y = y := by
  unfold wrapInt64
  rw [Int.emod_eq_of_lt (by omega) (by omega)]
  omega

/-- One temporary error takes the delay `min(5·2^i ms, 1 s)` to
`min(5·2^(i+1) ms, 1 s)`. -/
theorem backoff_step (i : Nat) :
    backoff (min (5 * 2 ^ i * Millisecond) Second) = min (5 * 2 ^ (i + 1) * Millisecond) Second := by
  have hx : (1 : Int) ≤ 2 ^ i := by exact_mod_cast Nat.one_le_two_pow
  rw [pow_succ]
  generalize (2 : Int) ^ i = x at hx
  simp only [backoff, Millisecond, Second]
  by_cases h : 5 * x * 1000000 ≤ 1000000000
  · rw [min_eq_left h, wrapInt64_eq _ (by omega) (by omega)]
    by_cases h2 : 5 * (x * 2) * 1000000 ≤ 1000000000
    · rw [min_eq_left h2]
      split <;> split <;> omega
    · rw [min_eq_right (by omega)]
      split <;> split <;> omega
  · rw [min_eq_right (by omega), min_eq_right (by omega)]
    decide

/-- The first temporary error sleeps 5 ms, whatever happened before. -/
theorem backoff_zero : backoff 0 = min (5 * 2 ^ 0 * Millisecond) Second := by
  decide

/-- The sleeps of `k` temporary errors in a row from the delay
`min(5·2^i ms, 1 s)`. -/
theorem acceptLoop_temporary (k i : Nat) :
    acceptLoop (min (5 * 2 ^ i * Millisecond) Second) (List.replicate k .temporary) =
      (min (5 * 2 ^ (i + k) * Millisecond) Second,
        (List.range k).map (fun j => min (5 * 2 ^ (i + 1 + j) * Millisecond) Second)) := by
  induction k generalizing i with
  | zero => simp [acceptLoop]
  | succ k ih =>
    simp only [List.replicate_succ, acceptLoop, backoff_step, ih (i + 1)]
    have e : i + 1 + k = i + (k + 1) := by omega
    rw [e, List.range_succ_eq_map]
    simp only [List.map_cons, List.map_map, Nat.add_zero]
    congr 2
    apply List.map_congr_left
    intro j _
    simp only [Function.comp]
    have e2 : i + 1 + 1 + j = i + 1 + (j + 1) := by omega
    rw [e2]

/-- Every sleep of the accept loop is at most one second. -/
theorem acceptLoop_le_second (d : Int) (events : List Accept) :
    ∀ x ∈ (acceptLoop d events).2, x ≤ Second := by
  induction events generalizing d with
  | nil => simp [acceptLoop]
  | cons e rest ih =>
    cases e with
    | conn => exact ih 0
    | temporary =>
      simp only [acceptLoop, List.mem_cons]
      rintro x (rfl | hx)
      · simp only [backoff, Second]
        split <;> omega
      · exact ih _ x hx

/-- C18: after `k ≥ 1` temporary accept errors in a row from delay 0 the
delay, which is the duration of the `k`-th sleep, is `min(5·2^(k-1) ms, 1 s)`:
the sleeps are 5, 10, 20, 40, 80, 160, 320, 640, 1000, 1000, … ms; no sleep
exceeds 1 s; and after a successful accept the next temporary error sleeps
5 ms again. -/
theorem accept_backoff :
    (∀ k, 1 ≤ k →
      (acceptLoop 0 (List.replicate k .temporary)).1 =
        min (5 * 2 ^ (k - 1) * Millisecond) Second ∧
      (acceptLoop 0 (List.replicate k .temporary)).2 =
        (List.range k).map (fun j => min (5 * 2 ^ j * Millisecond) Second)) ∧
    (acceptLoop 0 (List.replicate 10 .temporary)).2 =
      [5, 10, 20, 40, 80, 160, 320, 640, 1000, 1000].map (fun ms => ms * Millisecond) ∧
    (∀ d events, ∀ x ∈ (acceptLoop d events).2, x ≤ Second) ∧
    (∀ d rest, acceptStep (acceptStep d .conn) .temporary = 5 * Millisecond ∧
      (acceptLoop d (.conn :: .temporary :: rest)).2.head? = some (5 * Millisecond)) := by
  refine ⟨?_, by decide, acceptLoop_le_second, ?_⟩
  · intro k hk
    obtain ⟨k, rfl⟩ : ∃ k', k = k' + 1 := ⟨k - 1, by omega⟩
    have h := acceptLoop_temporary k 0
    have hstep : acceptLoop 0 (List.replicate (k + 1) .temporary) =
        ((acceptLoop (backoff 0) (List.replicate k .temporary)).1,
          backoff 0 :: (acceptLoop (backoff 0) (List.replicate k .temporary)).2) := rfl
    rw [hstep, backoff_zero, h]
    simp only [Nat.zero_add, Nat.add_sub_cancel, true_and]
    rw [List.range_succ_eq_map]
    simp only [List.map_cons, List.map_map]
    congr 1
    apply List.map_congr_left
    intro j _
    simp only [Function.comp]
    have e2 : 1 + j = j + 1 := by omega
    rw [e2]
  · intro d rest
    have h5 : backoff 0 = 5 * Millisecond := by decide
    exact ⟨h5, by simp only [acceptLoop, List.head?_cons, h5]⟩

/-- The backoff of C18 after nine temporary errors: the ninth sleep is the
first to reach the cap of 1 s. -/
theorem accept_backoff_witness :
    (acceptLoop 0 (List.replicate 9 .temporary)).1 = Second ∧
    (acceptLoop 0 (List.replicate 8 .temporary)).1 = 640 * Millisecond :=
  ⟨((accept_backoff.1 9 (by decide)).1).trans (by decide),
   ((accept_backoff.1 8 (by decide)).1).trans (by decide)⟩


/-! ## Identity assignment and lookup -/

/-- C19 (the code at a failing input): three live sessions, 0 bearing "Y",
1 bearing "X", 2 without identity, visited in the order 0, 1, 2.  Before the
call session 1 is the only live session bearing "X".  `SetID` of session 2 to
"X" inspects session 0 only and stops: session 1 is not closed, nothing is
removed from the registry, the callback is not invoked, and afterwards two
live sessions, 1 and 2, bear "X".  Visited in the order 1, 0, 2 the same call
closes session 1 and leaves session 2 as the only live bearer. -/
theorem SetID_keeps_second_bearer :
    (∀ c ∈ (exampleServer [0, 1, 2]).activeConn,
      ((exampleServer [0, 1, 2]).heap c).id = "X" → c = 1) ∧
    (Conn.SetID (exampleServer [0, 1, 2]) 2 "X").map
        (fun s => (s.activeConn, s.heap 1, s.heap 2, s.afterConnClose)) =
      some ([0, 1, 2], exampleConn "X", exampleConn "X", []) ∧
    (Conn.SetID (exampleServer [1, 0, 2]) 2 "X").map
        (fun s => (s.activeConn, s.heap 1, s.heap 2, s.afterConnClose)) =
      some ([0, 2],
        { id := "X", inShutdown := 1, closeNotifierClosed := true, rwcClosed := true },
        exampleConn "X", ["X"]) := by
  refine ⟨?_, rfl, rfl⟩
  intro c hc
  simp only [exampleServer, List.mem_cons, List.mem_singleton, List.not_mem_nil, or_false] at hc
  rcases hc with rfl | rfl | rfl
  · intro h
    exact absurd h (by decide)
  · intro _
    rfl
  · intro h
    exact absurd h (by decide)

/-- The `Range` of `FindConn` ends with the first session visited whose
identity is `id`, or with `c1` unchanged when there is none. -/
theorem findLoop_spec (s : Server) (id : String) (keys : List Nat) (c1 : ConnRef) :
    ((∀ c ∈ keys, (s.heap c).id ≠ id) ∧ findLoop s id keys c1 = c1) ∨
    ∃ c ∈ keys, (s.heap c).id = id ∧ findLoop s id keys c1 = .session c := by
  induction keys with
  | nil => left; simp [findLoop]
  | cons k rest ih =>
    by_cases h : (s.heap k).id = id
    · right
      exact ⟨k, List.mem_cons_self _ _, h, by simp [findLoop, h]⟩
    · have e : findLoop s id (k :: rest) c1 = findLoop s id rest c1 := by
        simp [findLoop, h]
      rcases ih with ⟨h1, h2⟩ | ⟨c, hc, h1, h2⟩
      · left
        refine ⟨?_, by rw [e, h2]⟩
        intro c hc
        rcases List.mem_cons.mp hc with rfl | hc
        · exact h
        · exact h1 c hc
      · right
        exact ⟨c, List.mem_cons_of_mem _ hc, h1, by rw [e, h2]⟩

/-- C20 (as stated, refuted): session 2 of the example server is registered
and bears the empty identity, and `FindConn` of the empty identity returns
`DeviceOffline`. -/
theorem FindConn_empty_identity :
    2 ∈ (exampleServer [0, 1, 2]).activeConn ∧
    ((exampleServer [0, 1, 2]).heap 2).id = "" ∧
    Server.FindConn (exampleServer [0, 1, 2]) "" = .error .DeviceOffline := by
  refine ⟨by simp [exampleServer], rfl, rfl⟩

/-- C20 (amended): for every registry state and every non-empty identity
`id`, `FindConn` returns a session exactly when some registered session has
identity `id`; the session returned is registered and has identity `id`; and
when no registered session has it, `FindConn` returns `DeviceOffline`.  For
the empty identity `FindConn` always returns `DeviceOffline`. -/
theorem FindConn_spec (s : Server) (id : String) :
    (id ≠ "" →
      ((∃ c, Server.FindConn s id = .ok c) ↔ ∃ p ∈ s.activeConn, (s.heap p).id = id) ∧
      (∀ c, Server.FindConn s id = .ok c →
        ∃ p, c = .session p ∧ p ∈ s.activeConn ∧ (s.heap p).id = id) ∧
      ((∀ p ∈ s.activeConn, (s.heap p).id ≠ id) →
        Server.FindConn s id = .error .DeviceOffline)) ∧
    Server.FindConn s "" = .error .DeviceOffline := by
  constructor
  · intro hid
    rcases findLoop_spec s id s.activeConn .fresh with ⟨h1, h2⟩ | ⟨p, hp, h1, h2⟩
    · have hF : Server.FindConn s id = .error .DeviceOffline := by
        simp [Server.FindConn, h2, ConnRef.id]
      refine ⟨?_, ?_, fun _ => hF⟩
      · constructor
        · rintro ⟨c, hc⟩
          rw [hF] at hc
          cases hc
        · rintro ⟨p, hp, hpid⟩
          exact absurd hpid (h1 p hp)
      · intro c hc
        rw [hF] at hc
        cases hc
    · have hF : Server.FindConn s id = .ok (.session p) := by
        simp [Server.FindConn, h2, ConnRef.id, h1, hid]
      refine ⟨⟨fun _ => ⟨p, hp, h1⟩, fun _ => ⟨_, hF⟩⟩, ?_, ?_⟩
      · intro c hc
        rw [hF] at hc
        cases hc
        exact ⟨p, rfl, hp, h1⟩
      · intro hno
        exact absurd h1 (hno p hp)
  · rcases findLoop_spec s "" s.activeConn .fresh with ⟨_, h2⟩ | ⟨p, _, h1, h2⟩
    · simp [Server.FindConn, h2, ConnRef.id]
    · simp [Server.FindConn, h2, ConnRef.id, h1]

/-- The lookup of C20 on the example server: "X" finds session 1, "Z" finds
no session. -/
theorem FindConn_spec_witness :
    Server.FindConn (exampleServer [0, 1, 2]) "X" = .ok (.session 1) ∧
    Server.FindConn (exampleServer [0, 1, 2]) "Z" = .error .DeviceOffline :=
  ⟨rfl,
   ((FindConn_spec (exampleServer [0, 1, 2]) "Z").1 (by decide)).2.2 (by
      intro p hp
      simp only [exampleServer, List.mem_cons, List.mem_singleton, List.not_mem_nil,
        or_false] at hp
      rcases hp with rfl | rfl | rfl <;> decide)⟩

end Nb

namespace Modbus

/-! ## Bulk conversions -/

/-- `Uint32ToBytes` writes four bytes per value. -/
theorem Uint32ToBytes_length (o : ByteOrder) (vs : List Nat) :
    (Uint32ToBytes o vs).length = vs.length * 4 := by
  induction vs with
  | nil => rfl
  | cons v vs ih =>
    cases o <;> simp [Uint32ToBytes, binaryPutUint32, ih] <;> omega

/-- Reading back the two bytes written for a 16-bit value. -/
theorem BytesToUint16_put (o : ByteOrder) (v : Nat) (hv : v < 65536) (rest : List Nat) :
    BytesToUint16 o (binaryPutUint16 o v ++ rest) = v :: BytesToUint16 o rest := by
  cases o <;> simp [binaryPutUint16, BytesToUint16, binaryUint16] <;> omega

/-- Reading back the four bytes written for a 32-bit value. -/
theorem BytesToUint32_put (o : ByteOrder) (v : Nat) (hv : v < 4294967296) (rest : List Nat) :
    BytesToUint32 o (binaryPutUint32 o v ++ rest) = v :: BytesToUint32 o rest := by
  cases o <;> simp [binaryPutUint32, BytesToUint32, binaryUint32] <;> omega

/-- Decoding the encoding of 16-bit values gives the values back. -/
theorem BytesToUint16_Uint16ToBytes (o : ByteOrder) (vs : List Nat)
    (hvs : ∀ v ∈ vs, v < 65536) : BytesToUint16 o (Uint16ToBytes o vs) = vs := by
  induction vs with
  | nil => rfl
  | cons v vs ih =>
    simp only [Uint16ToBytes]
    rw [BytesToUint16_put o v (hvs v (List.mem_cons_self _ _)),
      ih (fun w hw => hvs w (List.mem_cons_of_mem _ hw))]

/-- Decoding the encoding of 32-bit values gives the values back. -/
theorem BytesToUint32_Uint32ToBytes (o : ByteOrder) (vs : List Nat)
    (hvs : ∀ v ∈ vs, v < 4294967296) : BytesToUint32 o (Uint32ToBytes o vs) = vs := by
  induction vs with
  | nil => rfl
  | cons v vs ih =>
    simp only [Uint32ToBytes]
    rw [BytesToUint32_put o v (hvs v (List.mem_cons_self _ _)),
      ih (fun w hw => hvs w (List.mem_cons_of_mem _ hw))]

/-- Encoding the 16-bit values decoded from bytes gives back the bytes, less a
trailing odd byte. -/
theorem Uint16ToBytes_BytesToUint16 (o : ByteOrder) :
    ∀ bs : List Nat, (∀ b ∈ bs, b < 256) →
      Uint16ToBytes o (BytesToUint16 o bs) = bs.take (bs.length / 2 * 2)
  | [], _ => by simp [BytesToUint16, Uint16ToBytes]
  | [_], _ => by simp [BytesToUint16, Uint16ToBytes]
  | b0 :: b1 :: rest, h => by
    have h0 : b0 < 256 := h b0 (by simp)
    have h1 : b1 < 256 := h b1 (by simp)
    have ih := Uint16ToBytes_BytesToUint16 o rest
      (fun b hb => h b (List.mem_cons_of_mem _ (List.mem_cons_of_mem _ hb)))
    have e : (b0 :: b1 :: rest).length / 2 * 2 = rest.length / 2 * 2 + 2 := by
      simp only [List.length_cons]
      omega
    rw [e]
    simp only [BytesToUint16, Uint16ToBytes, ih, List.take_succ_cons]
    cases o <;> simp [binaryPutUint16, binaryUint16] <;> omega

/-- Encoding the 32-bit values decoded from bytes gives back the bytes, less
the trailing bytes that do not fill a value. -/
theorem Uint32ToBytes_BytesToUint32 (o : ByteOrder) :
    ∀ bs : List Nat, (∀ b ∈ bs, b < 256) →
      Uint32ToBytes o (BytesToUint32 o bs) = bs.take (bs.length / 4 * 4)
  | [], _ => by simp [BytesToUint32, Uint32ToBytes]
  | [_], _ => by simp [BytesToUint32, Uint32ToBytes]
  | [_, _], _ => by simp [BytesToUint32, Uint32ToBytes]
  | [_, _, _], _ => by simp [BytesToUint32, Uint32ToBytes]
  | b0 :: b1 :: b2 :: b3 :: rest, h => by
    have h0 : b0 < 256 := h b0 (by simp)
    have h1 : b1 < 256 := h b1 (by simp)
    have h2 : b2 < 256 := h b2 (by simp)
    have h3 : b3 < 256 := h b3 (by simp)
    have ih := Uint32ToBytes_BytesToUint32 o rest
      (fun b hb => h b (List.mem_cons_of_mem _ (List.mem_cons_of_mem _
        (List.mem_cons_of_mem _ (List.mem_cons_of_mem _ hb)))))
    have e : (b0 :: b1 :: b2 :: b3 :: rest).length / 4 * 4 = rest.length / 4 * 4 + 4 := by
      simp only [List.length_cons]
      omega
    rw [e]
    simp only [BytesToUint32, Uint32ToBytes, ih, List.take_succ_cons]
    cases o <;> simp [binaryPutUint32, binaryUint32] <;> omega

/-- Value `i` of `BytesToUint16` is read from `bytes[i*2 : (i+1)*2]`, for
`i < len(bytes)/2`. -/
theorem BytesToUint16_getElem? (o : ByteOrder) :
    ∀ (bs : List Nat) (i : Nat), (BytesToUint16 o bs)[i]? =
      if i < bs.length / 2 then some (binaryUint16 o ((bs.take ((i + 1) * 2)).drop (i * 2)))
      else none
  | [], i => by simp [BytesToUint16]
  | [_], i => by simp [BytesToUint16]
  | b0 :: b1 :: rest, 0 => by
    simp [BytesToUint16]
    omega
  | b0 :: b1 :: rest, i + 1 => by
    have ih := BytesToUint16_getElem? o rest i
    have e1 : (i + 1 + 1) * 2 = (i + 1) * 2 + 1 + 1 := by omega
    have e2 : (i + 1) * 2 = i * 2 + 1 + 1 := by omega
    have e3 : (i + 1 < (b0 :: b1 :: rest).length / 2) ↔ (i < rest.length / 2) := by
      simp only [List.length_cons]
      omega
    simp only [BytesToUint16, List.getElem?_cons_succ, ih, e3, e1, List.take_succ_cons]
    rw [e2]
    simp only [List.drop_succ_cons]

/-- Value `i` of `BytesToUint32` is read from `bytes[i*4 : (i+1)*4]`, for
`i < len(bytes)/4`. -/
theorem BytesToUint32_getElem? (o : ByteOrder) :
    ∀ (bs : List Nat) (i : Nat), (BytesToUint32 o bs)[i]? =
      if i < bs.length / 4 then some (binaryUint32 o ((bs.take ((i + 1) * 4)).drop (i * 4)))
      else none
  | [], i => by simp [BytesToUint32]
  | [_], i => by simp [BytesToUint32]
  | [_, _], i => by simp [BytesToUint32]
  | [_, _, _], i => by simp [BytesToUint32]
  | b0 :: b1 :: b2 :: b3 :: rest, 0 => by
    simp [BytesToUint32]
    omega
  | b0 :: b1 :: b2 :: b3 :: rest, i + 1 => by
    have ih := BytesToUint32_getElem? o rest i
    have e1 : (i + 1 + 1) * 4 = (i + 1) * 4 + 1 + 1 + 1 + 1 := by omega
    have e2 : (i + 1) * 4 = i * 4 + 1 + 1 + 1 + 1 := by omega
    have e3 : (i + 1 < (b0 :: b1 :: b2 :: b3 :: rest).length / 4) ↔ (i < rest.length / 4) := by
      simp only [List.length_cons]
      omega
    simp only [BytesToUint32, List.getElem?_cons_succ, ih, e3, e1, List.take_succ_cons]
    rw [e2]
    simp only [List.drop_succ_cons]

/-- C22: for both byte orders, decoding the bulk encoding of 16-bit
(resp. 32-bit) values gives the values back, and the encoding has 2 (resp. 4)
bytes per value; encoding the values decoded from a byte sequence gives the
sequence cut to its longest prefix of even length (resp. of length divisible
by 4); and the big-endian encoding of a value is the reverse of its
little-endian encoding. -/
theorem bulk_codec_roundtrip (o : ByteOrder) (vs ws bs : List Nat)
    (hvs : ∀ v ∈ vs, v < 65536) (hws : ∀ w ∈ ws, w < 4294967296)
    (hbs : ∀ b ∈ bs, b < 256) :
    BytesToUint16 o (Uint16ToBytes o vs) = vs ∧
    (Uint16ToBytes o vs).length = 2 * vs.length ∧
    BytesToUint32 o (Uint32ToBytes o ws) = ws ∧
    (Uint32ToBytes o ws).length = 4 * ws.length ∧
    Uint16ToBytes o (BytesToUint16 o bs) = bs.take (bs.length / 2 * 2) ∧
    Uint32ToBytes o (BytesToUint32 o bs) = bs.take (bs.length / 4 * 4) ∧
    (∀ v, Uint16ToBytes .big [v] = (Uint16ToBytes .little [v]).reverse) ∧
    (∀ w, Uint32ToBytes .big [w] = (Uint32ToBytes .little [w]).reverse) := by
  refine ⟨BytesToUint16_Uint16ToBytes o vs hvs, ?_, BytesToUint32_Uint32ToBytes o ws hws, ?_,
    Uint16ToBytes_BytesToUint16 o bs hbs, Uint32ToBytes_BytesToUint32 o bs hbs, ?_, ?_⟩
  · rw [Uint16ToBytes_length]
    omega
  · rw [Uint32ToBytes_length]
    omega
  · intro v
    simp [Uint16ToBytes, binaryPutUint16]
  · intro w
    simp [Uint32ToBytes, binaryPutUint32]

/-- The round trips of C22 in big-endian order: the values 0x0102, 0xA0B0
encode to 01 02 A0 B0 and back; the five bytes 01 02 03 04 05 decode to two
16-bit values, which encode to the first four bytes. -/
theorem bulk_codec_roundtrip_witness :
    Uint16ToBytes .big [0x0102, 0xA0B0] = [1, 2, 0xA0, 0xB0] ∧
    BytesToUint16 .big (Uint16ToBytes .big [0x0102, 0xA0B0]) = [0x0102, 0xA0B0] ∧
    BytesToUint32 .big (Uint32ToBytes .big [0x01020304]) = [0x01020304] ∧
    Uint16ToBytes .big (BytesToUint16 .big [1, 2, 3, 4, 5]) = [1, 2, 3, 4] ∧
    Uint32ToBytes .big (BytesToUint32 .big [1, 2, 3, 4, 5]) = [1, 2, 3, 4] :=
  ⟨rfl,
   (bulk_codec_roundtrip .big [0x0102, 0xA0B0] [0x01020304] [1, 2, 3, 4, 5]
      (by decide) (by decide) (by decide)).1,
   (bulk_codec_roundtrip .big [0x0102, 0xA0B0] [0x01020304] [1, 2, 3, 4, 5]
      (by decide) (by decide) (by decide)).2.2.1,
   (bulk_codec_roundtrip .big [0x0102, 0xA0B0] [0x01020304] [1, 2, 3, 4, 5]
      (by decide) (by decide) (by decide)).2.2.2.2.1.trans rfl,
   (bulk_codec_roundtrip .big [0x0102, 0xA0B0] [0x01020304] [1, 2, 3, 4, 5]
      (by decide) (by decide) (by decide)).2.2.2.2.2.1.trans rfl⟩

end Modbus

namespace Nb

/-! ## Close -/

/-- `Close` on a session that is not shutting down and whose close signal is
open, on a server whose `AfterConnClose` is assigned: the flag is set, the
session leaves the registry, the signal and the transport are closed, the
callback is invoked with the session's identity. -/
theorem Close_live (s : Server) (c : Nat) (h0 : (s.heap c).inShutdown = 0)
    (h1 : (s.heap c).closeNotifierClosed = false) (hcb : s.afterConnCloseSet = true) :
    Conn.Close s c = some
      { heap := fun p => if p = c then
          { id := (s.heap c).id, inShutdown := 1, closeNotifierClosed := true,
            rwcClosed := true }
          else s.heap p
        activeConn := s.activeConn.filter (fun p => p ≠ c)
        afterConnCloseSet := s.afterConnCloseSet
        afterConnClose := s.afterConnClose ++ [(s.heap c).id] } := by
  have hsd : Conn.ShuttingDown s c = false := by simp [Conn.ShuttingDown, h0]
  simp only [Conn.Close, hsd, Server.setConn, if_true, h1, hcb]
  simp
  funext p
  by_cases hp : p = c
  · simp [hp]
  · simp [hp]

/-- `Close` on a session that is shutting down changes nothing. -/
theorem Close_closed (s : Server) (c : Nat) (h : (s.heap c).inShutdown ≠ 0) :
    Conn.Close s c = some s := by
  have hsd : Conn.ShuttingDown s c = true := by simp [Conn.ShuttingDown, h]
  simp [Conn.Close, hsd]

/-- `Close` on a session that is not shutting down, on a server whose
`AfterConnClose` is nil, panics. -/
theorem Close_nil_callback (s : Server) (c : Nat) (h0 : (s.heap c).inShutdown = 0)
    (hcb : s.afterConnCloseSet = false) : Conn.Close s c = none := by
  have hsd : Conn.ShuttingDown s c = false := by simp [Conn.ShuttingDown, h0]
  simp only [Conn.Close, hsd, Server.setConn, hcb]
  simp

/-- A `Close` that returns either changed nothing, or found the session not
shutting down and did all of its steps. -/
theorem Close_cases (s s' : Server) (c : Nat) (h : Conn.Close s c = some s') :
    s' = s ∨ ((s.heap c).inShutdown = 0 ∧
      s' = { heap := fun p => if p = c then
               { id := (s.heap c).id, inShutdown := 1, closeNotifierClosed := true,
                 rwcClosed := true }
               else s.heap p
             activeConn := s.activeConn.filter (fun p => p ≠ c)
             afterConnCloseSet := s.afterConnCloseSet
             afterConnClose := s.afterConnClose ++ [(s.heap c).id] }) := by
  by_cases h0 : (s.heap c).inShutdown = 0
  · cases h1 : (s.heap c).closeNotifierClosed with
    | false =>
      cases hcb : s.afterConnCloseSet with
      | false =>
        rw [Close_nil_callback s c h0 hcb] at h
        cases h
      | true =>
        rw [Close_live s c h0 h1 hcb, hcb] at h
        exact Or.inr ⟨h0, (Option.some.inj h).symm⟩
    | true =>
      have hsd : Conn.ShuttingDown s c = false := by simp [Conn.ShuttingDown, h0]
      simp [Conn.Close, hsd, Server.setConn, h1] at h
  · rw [Close_closed s c h0] at h
    exact Or.inl (Option.some.inj h).symm

/-- `Close` keeps the close signal of sessions that are not shutting down
open, and keeps a session that is shutting down so. -/
theorem Close_inv (s s' : Server) (c' : Nat) (h : Conn.Close s c' = some s') :
    (s.SignalOpen → s'.SignalOpen) ∧
    ∀ c, (s.heap c).inShutdown ≠ 0 → (s'.heap c).inShutdown ≠ 0 := by
  rcases Close_cases s s' c' h with rfl | ⟨_, rfl⟩
  · exact ⟨fun ho => ho, fun _ hc => hc⟩
  · constructor
    · intro hopen c
      by_cases hc : c = c'
      · simp [hc]
      · simpa [hc] using hopen c
    · intro c hcl
      by_cases hc : c = c'
      · simp [hc]
      · simpa [hc] using hcl

/-- Assigning an identity changes neither flag. -/
theorem setId_inv (s : Server) (c' : Nat) (id : String) :
    (s.SignalOpen → (s.setConn c' { s.heap c' with id := id }).SignalOpen) ∧
    ∀ c, (s.heap c).inShutdown ≠ 0 →
      ((s.setConn c' { s.heap c' with id := id }).heap c).inShutdown ≠ 0 := by
  constructor
  · intro hopen c
    by_cases hc : c = c'
    · simpa [Server.setConn, hc] using hopen c'
    · simpa [Server.setConn, hc] using hopen c
  · intro c hcl
    by_cases hc : c = c'
    · subst hc
      simpa [Server.setConn] using hcl
    · simpa [Server.setConn, hc] using hcl

/-- `SetID` keeps the close signal of sessions that are not shutting down
open, and keeps a session that is shutting down so. -/
theorem SetID_inv (s s' : Server) (c' : Nat) (id : String)
    (h : Conn.SetID s c' id = some s') :
    (s.SignalOpen → s'.SignalOpen) ∧
    ∀ c, (s.heap c).inShutdown ≠ 0 → (s'.heap c).inShutdown ≠ 0 := by
  unfold Conn.SetID at h
  simp only at h
  split at h
  · cases h
  · rename_i t ht
    cases h
    have hmid : (s.SignalOpen → t.SignalOpen) ∧
        ∀ c, (s.heap c).inShutdown ≠ 0 → (t.heap c).inShutdown ≠ 0 := by
      split at ht
      · cases ht
        exact ⟨fun ho => ho, fun _ hc => hc⟩
      · split at ht
        · exact Close_inv _ _ _ ht
        · cases ht
          exact ⟨fun ho => ho, fun _ hc => hc⟩
    have hset := setId_inv t c' id
    exact ⟨fun ho => hset.1 (hmid.1 ho), fun c hc => hset.2 c (hmid.2 c hc)⟩

/-- The loop of `Shutdown` keeps the close signal of sessions that are not
shutting down open, and keeps a session that is shutting down so. -/
theorem shutdownLoop_inv (keys : List Nat) (s s' : Server)
    (h : shutdownLoop keys s = some s') :
    (s.SignalOpen → s'.SignalOpen) ∧
    ∀ c, (s.heap c).inShutdown ≠ 0 → (s'.heap c).inShutdown ≠ 0 := by
  induction keys generalizing s with
  | nil =>
    cases h
    exact ⟨fun ho => ho, fun _ hc => hc⟩
  | cons k rest ih =>
    unfold shutdownLoop at h
    split at h
    · cases h
    · rename_i t ht
      have h1 := Close_inv s t k ht
      have h2 := ih t h
      exact ⟨fun ho => h2.1 (h1.1 ho), fun c hc => h2.2 c (h1.2 c hc)⟩

/-- An accept keeps the close signal of sessions that are not shutting down
open, and keeps every session other than the new one as it was. -/
theorem accept_inv (s : Server) (c' : Nat) :
    (s.SignalOpen → (s.accept c').SignalOpen) ∧
    ∀ c, c ≠ c' → ((s.accept c').heap c) = s.heap c := by
  constructor
  · intro hopen c
    by_cases hc : c = c'
    · simp [Server.accept, Server.setConn, hc, newConn]
    · simpa [Server.accept, Server.setConn, hc] using hopen c
  · intro c hc
    simp [Server.accept, Server.setConn, hc]

/-- One operation keeps the close signal of sessions that are not shutting
down open, and, unless it is the accept that creates the session, keeps a
session that is shutting down so. -/
theorem step_inv (s s' : Server) (op : Op) (h : s.step op = some s') :
    (s.SignalOpen → s'.SignalOpen) ∧
    ∀ c, op ≠ .accept c → (s.heap c).inShutdown ≠ 0 → (s'.heap c).inShutdown ≠ 0 := by
  cases op with
  | accept c' =>
    simp only [Server.step, Option.some.injEq] at h
    subst h
    refine ⟨(accept_inv s c').1, ?_⟩
    intro c hne hc
    have hcc : c ≠ c' := fun e => hne (by rw [e])
    rw [(accept_inv s c').2 c hcc]
    exact hc
  | close c' =>
    have := Close_inv s s' c' h
    exact ⟨this.1, fun c _ hc => this.2 c hc⟩
  | setID c' id =>
    have := SetID_inv s s' c' id h
    exact ⟨this.1, fun c _ hc => this.2 c hc⟩
  | shutdown =>
    have := shutdownLoop_inv s.activeConn s s' h
    exact ⟨this.1, fun c _ hc => this.2 c hc⟩
  | assignAfterConnClose nonNil =>
    simp only [Server.step, Option.some.injEq] at h
    subst h
    exact ⟨fun ho => ho, fun _ _ hc => hc⟩
  | other =>
    simp only [Server.step, Option.some.injEq] at h
    subst h
    exact ⟨fun ho => ho, fun _ _ hc => hc⟩

/-- A sequence of operations keeps the close signal of sessions that are not
shutting down open, and, unless it creates the session anew, keeps a session
that is shutting down so. -/
theorem run_inv (ops : List Op) (s s' : Server) (h : s.run ops = some s') :
    (s.SignalOpen → s'.SignalOpen) ∧
    ∀ c, (∀ op ∈ ops, op ≠ .accept c) → (s.heap c).inShutdown ≠ 0 →
      (s'.heap c).inShutdown ≠ 0 := by
  induction ops generalizing s with
  | nil =>
    cases h
    exact ⟨fun ho => ho, fun _ _ hc => hc⟩
  | cons op rest ih =>
    unfold Server.run at h
    split at h
    · cases h
    · rename_i t ht
      have h1 := step_inv s t op ht
      have h2 := ih t h
      refine ⟨fun ho => h2.1 (h1.1 ho), ?_⟩
      intro c hno hc
      exact h2.2 c (fun o ho => hno o (List.mem_cons_of_mem _ ho))
        (h1.2 c (hno op (List.mem_cons_self _ _)) hc)

/-- The close signal of every session of the initial server is open. -/
theorem initial_SignalOpen : Server.initial.SignalOpen := by
  intro c _
  rfl

/-- C21 (as stated, refuted): on the server `NewServer()` returns, whose
`AfterConnClose` is nil, after one accept session 0 is live and registered,
and `Close` of it panics at the call of the callback instead of returning. -/
theorem Close_without_callback :
    (Server.initial.run [.accept 0]).map
        (fun s => (s.activeConn, s.heap 0, s.afterConnCloseSet, s.afterConnClose)) =
      some ([0], newConn, false, []) ∧
    ((Server.initial.run [.accept 0]).bind (fun s => Conn.Close s 0)).isNone = true ∧
    (Server.initial.run [.accept 0, .close 0]).isNone = true := by
  refine ⟨rfl, rfl, rfl⟩

/-- C21 (amended): in every state the server reaches from the one
`NewServer()` returns and in which `AfterConnClose` is assigned, `Close` of a
session followed by `Close` again returns, and the second `Close` changes
nothing.  For a session that was not shutting down, the state after either is:
flag set, session absent from the registry, close signal closed (once: a
second closing would panic), transport closed, and the callback invoked once,
with the session's identity.  For a session that was shutting down, `Close`
changes nothing.  And no sequence of operations on any state takes the flag
of a session from set back to 0, short of creating the session anew. -/
theorem Close_idempotent (ops : List Op) (s : Server) (c : Nat)
    (hreach : Server.initial.run ops = some s) (hcb : s.afterConnCloseSet = true) :
    (∃ s1, Conn.Close s c = some s1 ∧ Conn.Close s1 c = some s1 ∧
      (s1.heap c).inShutdown ≠ 0 ∧
      ((s.heap c).inShutdown = 0 →
        c ∉ s1.activeConn ∧ (s1.heap c).closeNotifierClosed = true ∧
        (s1.heap c).rwcClosed = true ∧
        s1.afterConnClose = s.afterConnClose ++ [(s.heap c).id] ∧
        (∀ p, p ≠ c → s1.heap p = s.heap p) ∧
        (∀ p, p ≠ c → (p ∈ s1.activeConn ↔ p ∈ s.activeConn))) ∧
      ((s.heap c).inShutdown ≠ 0 → s1 = s)) ∧
    (∀ (t t' : Server) (later : List Op), (∀ op ∈ later, op ≠ .accept c) →
      t.run later = some t' → (t.heap c).inShutdown ≠ 0 → (t'.heap c).inShutdown ≠ 0) := by
  have hopen : s.SignalOpen := (run_inv ops _ s hreach).1 initial_SignalOpen
  refine ⟨?_, fun t t' later hno hrun hc => (run_inv later t t' hrun).2 c hno hc⟩
  by_cases h0 : (s.heap c).inShutdown = 0
  · have hlive := Close_live s c h0 (hopen c h0) hcb
    refine ⟨_, hlive, Close_closed _ c (by simp), by simp, ?_, fun h => absurd h0 h⟩
    intro _
    refine ⟨by simp, by simp, by simp, rfl, ?_, ?_⟩
    · intro p hp
      simp [hp]
    · intro p hp
      simp [List.mem_filter, hp]
  · exact ⟨s, Close_closed s c h0, Close_closed s c h0, h0, fun h => absurd h h0, fun _ => rfl⟩

/-- The two `Close` calls of C21 on session 1 of a server whose caller
assigned `AfterConnClose`, accepted sessions 0 and 1 and gave session 1 the
identity "X": after both, session 1 is shutting down with signal and
transport closed, only session 0 is registered, and the callback was invoked
once, with "X". -/
theorem Close_idempotent_witness :
    ((Server.initial.run [.assignAfterConnClose true, .accept 0, .accept 1, .setID 1 "X",
        .close 1, .close 1]).map
        (fun s => (s.activeConn, s.heap 1, s.afterConnClose))) =
      some ([0], { id := "X", inShutdown := 1, closeNotifierClosed := true,
                   rwcClosed := true }, ["X"]) ∧
    ∃ s, Server.initial.run [.assignAfterConnClose true, .accept 0, .accept 1,
        .setID 1 "X"] = some s ∧
      ∃ s1, Conn.Close s 1 = some s1 ∧ Conn.Close s1 1 = some s1 ∧
        (s1.heap 1).inShutdown ≠ 0 :=
  ⟨rfl, _, rfl,
    (Close_idempotent [.assignAfterConnClose true, .accept 0, .accept 1, .setID 1 "X"] _ 1
      rfl rfl).1.imp (fun _ h => ⟨h.1, h.2.1, h.2.2.1⟩)⟩

end Nb
